import Mathlib

/-!
# Verification of the modded-protocol packet decoder

Shallow embedding of `src/azalea-client/src/packet_decoder.rs`:
the VarInt reader, the two prefixed-string readers, the recursive NBT
(tagged binary tree) parser, and the CCA entity-sync packet decoder,
together with proofs of the specified properties.

Modelling conventions:
* A byte buffer is a `List Nat` whose entries are byte values; `Cursor`
  is the `std::io::Cursor<&[u8]>` of the source: the buffer plus a
  forward-only position.
* Machine integers are modelled by `Nat` bit patterns together with
  explicit two's-complement reinterpretation (`toSigned`), and wrap-around
  is an explicit `% 2 ^ 32`.
* Rust `String` values are modelled by their UTF-8 byte lists (`RStr`),
  with a faithful UTF-8 validity check (`validateUtf8`) standing in for
  `String::from_utf8`; UTF-8 decoding is injective, so byte-list equality
  is string equality.
* `f32::from_be_bytes` / `f64::from_be_bytes` are bijections from bytes to
  IEEE-754 bit patterns, so float payloads are carried as their bit
  patterns (`Nat`); no claim inspects floating-point semantics.
* Fallible readers take a `Cursor` and return `Option (α × Cursor)` or
  `Except String (α × Cursor)`; a failing read aborts the surrounding
  function exactly as `?` does in the source, so the cursor after a failed
  read is never observed.
-/

/-- A byte buffer together with a read position:
`std::io::Cursor<&[u8]>` from the source. -/
structure Cursor where
  data : List Nat
  pos : Nat
deriving Repr

/-- Bytes left to read: `data.len() - cursor.position()`. -/
def Cursor.remaining (c : Cursor) : Nat := c.data.length - c.pos

/-- `read_exact` of a single byte: succeeds exactly when the position is
in bounds, advancing the position by one. -/
def readByte (c : Cursor) : Option (Nat × Cursor) :=
  if c.pos < c.data.length then
    some (c.data.getD c.pos 0, ⟨c.data, c.pos + 1⟩)
  else none

/-- `read_exact` of `n` bytes: succeeds exactly when `n` bytes remain,
returning them and advancing the position by `n`. -/
def readBytes (n : Nat) (c : Cursor) : Option (List Nat × Cursor) :=
  if c.pos + n ≤ c.data.length then
    some ((c.data.drop c.pos).take n, ⟨c.data, c.pos + n⟩)
  else none

/-- Two's-complement reinterpretation of a `w`-bit pattern as a signed
integer (`as i8` / `i16::from_be_bytes` / … in the source). -/
def toSigned (w : Nat) (p : Nat) : Int :=
  if p < 2 ^ (w - 1) then (p : Int) else (p : Int) - 2 ^ w

/-- `i32` reinterpretation of a 32-bit pattern. -/
def toInt32 (p : Nat) : Int := toSigned 32 p

/-- Rust's `as usize` on an `i32` value (64-bit target): sign-extend and
reinterpret as an unsigned 64-bit integer. -/
def usizeOfI32 (v : Int) : Nat := (v % (2 : Int) ^ 64).toNat

/-- Rust's `as u32` on an `i32` value: the underlying 32-bit pattern. -/
def u32OfI32 (v : Int) : Nat := (v % (2 : Int) ^ 32).toNat

/-- Big-endian value of a byte list (`uN::from_be_bytes`). -/
def beNat (l : List Nat) : Nat := l.foldl (fun acc b => acc * 256 + b) 0

/-- `u16::from_be_bytes([data[i], data[i+1]])` read directly from the
buffer, as done by the packet decoder's length framing. -/
def word16be (data : List Nat) (i : Nat) : Nat :=
  data.getD i 0 * 256 + data.getD (i + 1) 0

/-- Is `b` a UTF-8 continuation byte (`0x80 ..= 0xBF`)? -/
def isCont (b : Nat) : Bool := 0x80 ≤ b && b ≤ 0xBF

/-- UTF-8 validity of a byte list, matching Rust's `String::from_utf8`
check (RFC 3629: no overlong forms, no surrogates, max `U+10FFFF`). -/
def validateUtf8 : List Nat → Bool
  | [] => true
  | b :: rest =>
    if b ≤ 0x7F then validateUtf8 rest
    else if 0xC2 ≤ b && b ≤ 0xDF then
      match rest with
      | c1 :: rest' => isCont c1 && validateUtf8 rest'
      | _ => false
    else if b == 0xE0 then
      match rest with
      | c1 :: c2 :: rest' => (0xA0 ≤ c1 && c1 ≤ 0xBF) && isCont c2 && validateUtf8 rest'
      | _ => false
    else if (0xE1 ≤ b && b ≤ 0xEC) || b == 0xEE || b == 0xEF then
      match rest with
      | c1 :: c2 :: rest' => isCont c1 && isCont c2 && validateUtf8 rest'
      | _ => false
    else if b == 0xED then
      match rest with
      | c1 :: c2 :: rest' => (0x80 ≤ c1 && c1 ≤ 0x9F) && isCont c2 && validateUtf8 rest'
      | _ => false
    else if b == 0xF0 then
      match rest with
      | c1 :: c2 :: c3 :: rest' =>
        (0x90 ≤ c1 && c1 ≤ 0xBF) && isCont c2 && isCont c3 && validateUtf8 rest'
      | _ => false
    else if 0xF1 ≤ b && b ≤ 0xF3 then
      match rest with
      | c1 :: c2 :: c3 :: rest' => isCont c1 && isCont c2 && isCont c3 && validateUtf8 rest'
      | _ => false
    else if b == 0xF4 then
      match rest with
      | c1 :: c2 :: c3 :: rest' =>
        (0x80 ≤ c1 && c1 ≤ 0x8F) && isCont c2 && isCont c3 && validateUtf8 rest'
      | _ => false
    else false

/-- A Rust `String`, modelled by its UTF-8 bytes. -/
def RStr := List Nat
deriving DecidableEq, Repr

/-- The loop of `read_varint`: accumulate 7-bit groups into a 32-bit
pattern (`result`), failing once `shift` reaches 35 or the cursor is
exhausted.  `result |= ((b & 0x7F) as i32) << shift` is the pattern
update `result ||| (((b &&& 0x7F) <<< shift) % 2 ^ 32)`. -/
def read_varint_loop (c : Cursor) (result : Nat) (shift : Nat) :
    Option (Nat × Cursor) :=
  if shift ≥ 35 then none
  else
    match readByte c with
    | none => none
    | some (b, c1) =>
      let result' := result ||| (((b &&& 0x7F) <<< shift) % 2 ^ 32)
      if b &&& 0x80 = 0 then some (result', c1)
      else read_varint_loop c1 result' (shift + 7)
termination_by 35 - shift
decreasing_by omega

/-- `read_varint`: a Minecraft-style VarInt, returned as an `i32`. -/
def read_varint (c : Cursor) : Option (Int × Cursor) :=
  (read_varint_loop c 0 0).map fun p => (toInt32 p.1, p.2)

/-- `read_varint_u32`: the same decode reinterpreted as `u32`. -/
def read_varint_u32 (c : Cursor) : Option (Nat × Cursor) :=
  (read_varint c).map fun p => (u32OfI32 p.1, p.2)

/-- `read_string`: VarInt byte length, then that many bytes, then UTF-8
validation. -/
def read_string (c : Cursor) : Option (RStr × Cursor) :=
  match read_varint c with
  | none => none
  | some (v, c1) =>
    let len := usizeOfI32 v
    match readBytes len c1 with
    | none => none
    | some (bytes, c2) =>
      if validateUtf8 bytes then some (bytes, c2) else none

/-- `read_string_byte_prefix`: single-byte length, then that many bytes,
then UTF-8 validation. -/
def read_string_byte_prefix (c : Cursor) : Option (RStr × Cursor) :=
  match readByte c with
  | none => none
  | some (lenByte, c1) =>
    match readBytes lenByte c1 with
    | none => none
    | some (bytes, c2) =>
      if validateUtf8 bytes then some (bytes, c2) else none

/-- Reference little-endian base-128 encoder with continuation bits, used
to state the VarInt round-trip property. -/
def encode_varint (n : Nat) : List Nat :=
  if n < 128 then [n] else (n % 128 + 128) :: encode_varint (n / 128)
termination_by n
decreasing_by exact Nat.div_lt_self (by omega) (by omega)

/-- NBT tag value (the source's `NbtTag` enum).  Numeric payloads carry
their two's-complement values; `Float`/`Double` carry the IEEE-754 bit
pattern that `from_be_bytes` reads; strings carry UTF-8 bytes. -/
inductive NbtTag where
  | Byte (v : Int)
  | Short (v : Int)
  | Int (v : Int)
  | Long (v : Int)
  | Float (bits : Nat)
  | Double (bits : Nat)
  | ByteArray (v : List Int)
  | String (s : RStr)
  | List (items : List NbtTag)
  | Compound (tags : List (RStr × NbtTag))
  | IntArray (v : List Int)
  | LongArray (v : List Int)

/-- The source's `NbtCompound` struct, modelled by its single field
`tags`: an ordered list of name/value pairs. -/
abbrev NbtCompound := List (RStr × NbtTag)

/-- The source's `ComponentData` enum: raw NBT bytes after a failed tree
parse, a successfully parsed compound, or unknown-format bytes. -/
inductive ComponentData where
  | Nbt (raw : List Nat)
  | ParsedNbt (nbt : NbtCompound)
  | Unknown (raw : List Nat)

/-- One component of a CCA entity-sync packet. -/
structure CcaComponent where
  component_type : RStr
  data : ComponentData

/-- A decoded CCA entity-sync packet. -/
structure CcaEntitySyncPacket where
  entity_id : Int
  components : List CcaComponent

/-- `read_nbt_string`: 2-byte big-endian length, then that many bytes,
then UTF-8 validation. -/
def read_nbt_string (c : Cursor) : Except String (RStr × Cursor) :=
  match readBytes 2 c with
  | none => .error "failed to fill whole buffer"
  | some (lenBytes, c1) =>
    match readBytes (beNat lenBytes) c1 with
    | none => .error "failed to fill whole buffer"
    | some (bytes, c2) =>
      if validateUtf8 bytes then .ok (bytes, c2) else .error "invalid utf-8"

/-- The element loops of `TAG_Int_Array` / `TAG_Long_Array`: read `n`
big-endian fields of `w` bytes each, one at a time. -/
def read_be_items (w : Nat) : Nat → Cursor → Except String (List Nat × Cursor)
  | 0, c => .ok ([], c)
  | n + 1, c =>
    match readBytes w c with
    | none => .error "failed to fill whole buffer"
    | some (bs, c1) =>
      match read_be_items w n c1 with
      | .error e => .error e
      | .ok (l, c2) => .ok (beNat bs :: l, c2)

mutual

/-- The loop of `read_nbt_compound`, with explicit fuel (`none` means the
fuel ran out; the fuel-sufficiency theorem shows `2 * remaining + 2` fuel
never does).  Reads a tag-type byte; 0 terminates the compound; any other
value reads a name and a payload and loops. -/
def read_nbt_compound_f : Nat → Cursor → Option (Except String (NbtCompound × Cursor))
  | 0, _ => none
  | fuel + 1, c =>
    match readByte c with
    | none => some (.error "failed to fill whole buffer")
    | some (tagType, c1) =>
      if tagType = 0 then some (.ok ([], c1))
      else
        match read_nbt_string c1 with
        | .error e => some (.error e)
        | .ok (tagName, c2) =>
          match read_nbt_payload_f fuel c2 tagType with
          | none => none
          | some (.error e) => some (.error e)
          | some (.ok (tagValue, c3)) =>
            match read_nbt_compound_f fuel c3 with
            | none => none
            | some (.error e) => some (.error e)
            | some (.ok (rest, c4)) => some (.ok ((tagName, tagValue) :: rest, c4))
termination_by fuel c => (fuel, 0)

/-- `read_nbt_payload`, with explicit fuel: payload dispatch keyed by the
tag type, big-endian fields, `Err` on any tag type outside 1–12. -/
def read_nbt_payload_f : Nat → Cursor → Nat → Option (Except String (NbtTag × Cursor))
  | 0, _, _ => none
  | fuel + 1, c, tagType =>
    match tagType with
    | 1 =>
      some <| match readBytes 1 c with
      | none => .error "failed to fill whole buffer"
      | some (bs, c1) => .ok (NbtTag.Byte (toSigned 8 (beNat bs)), c1)
    | 2 =>
      some <| match readBytes 2 c with
      | none => .error "failed to fill whole buffer"
      | some (bs, c1) => .ok (NbtTag.Short (toSigned 16 (beNat bs)), c1)
    | 3 =>
      some <| match readBytes 4 c with
      | none => .error "failed to fill whole buffer"
      | some (bs, c1) => .ok (NbtTag.Int (toSigned 32 (beNat bs)), c1)
    | 4 =>
      some <| match readBytes 8 c with
      | none => .error "failed to fill whole buffer"
      | some (bs, c1) => .ok (NbtTag.Long (toSigned 64 (beNat bs)), c1)
    | 5 =>
      some <| match readBytes 4 c with
      | none => .error "failed to fill whole buffer"
      | some (bs, c1) => .ok (NbtTag.Float (beNat bs), c1)
    | 6 =>
      some <| match readBytes 8 c with
      | none => .error "failed to fill whole buffer"
      | some (bs, c1) => .ok (NbtTag.Double (beNat bs), c1)
    | 7 =>
      some <| match readBytes 4 c with
      | none => .error "failed to fill whole buffer"
      | some (lenBytes, c1) =>
        match readBytes (usizeOfI32 (toSigned 32 (beNat lenBytes))) c1 with
        | none => .error "failed to fill whole buffer"
        | some (bs, c2) => .ok (NbtTag.ByteArray (bs.map (toSigned 8)), c2)
    | 8 =>
      some <| match read_nbt_string c with
      | .error e => .error e
      | .ok (s, c1) => .ok (NbtTag.String s, c1)
    | 9 =>
      match readByte c with
      | none => some (.error "failed to fill whole buffer")
      | some (listType, c1) =>
        match readBytes 4 c1 with
        | none => some (.error "failed to fill whole buffer")
        | some (lenBytes, c2) =>
          match read_nbt_list_f fuel c2 listType (usizeOfI32 (toSigned 32 (beNat lenBytes))) with
          | none => none
          | some (.error e) => some (.error e)
          | some (.ok (items, c3)) => some (.ok (NbtTag.List items, c3))
    | 10 =>
      match read_nbt_compound_f fuel c with
      | none => none
      | some (.error e) => some (.error e)
      | some (.ok (comp, c1)) => some (.ok (NbtTag.Compound comp, c1))
    | 11 =>
      some <| match readBytes 4 c with
      | none => .error "failed to fill whole buffer"
      | some (lenBytes, c1) =>
        match read_be_items 4 (usizeOfI32 (toSigned 32 (beNat lenBytes))) c1 with
        | .error e => .error e
        | .ok (l, c2) => .ok (NbtTag.IntArray (l.map (toSigned 32)), c2)
    | 12 =>
      some <| match readBytes 4 c with
      | none => .error "failed to fill whole buffer"
      | some (lenBytes, c1) =>
        match read_be_items 8 (usizeOfI32 (toSigned 32 (beNat lenBytes))) c1 with
        | .error e => .error e
        | .ok (l, c2) => .ok (NbtTag.LongArray (l.map (toSigned 64)), c2)
    | t => some (.error ("Unknown NBT tag type: " ++ toString t))
termination_by fuel c tagType => (fuel, 0)

/-- The element loop of `TAG_List`: read `n` payloads of the element tag
type, with explicit fuel shared with the payload reader. -/
def read_nbt_list_f : Nat → Cursor → Nat → Nat → Option (Except String (List NbtTag × Cursor))
  | _, c, _, 0 => some (.ok ([], c))
  | fuel, c, listType, n + 1 =>
    match read_nbt_payload_f fuel c listType with
    | none => none
    | some (.error e) => some (.error e)
    | some (.ok (item, c1)) =>
      match read_nbt_list_f fuel c1 listType n with
      | none => none
      | some (.error e) => some (.error e)
      | some (.ok (items, c2)) => some (.ok (item :: items, c2))
termination_by fuel c listType n => (fuel, n + 1)

end

/-- `read_nbt_compound` as in the source, instantiated with provably
sufficient fuel. -/
def read_nbt_compound (c : Cursor) : Except String (NbtCompound × Cursor) :=
  (read_nbt_compound_f (2 * c.remaining + 2) c).getD (.error "out of fuel")

/-- `read_nbt_payload` as in the source, instantiated with provably
sufficient fuel. -/
def read_nbt_payload (c : Cursor) (tagType : Nat) : Except String (NbtTag × Cursor) :=
  (read_nbt_payload_f (2 * c.remaining + 2) c tagType).getD (.error "out of fuel")

/-- `parse_nbt`: empty input is an empty compound; otherwise parse one
compound from the start and drop the final cursor. -/
def parse_nbt (data : List Nat) : Except String NbtCompound :=
  if data.isEmpty then .ok []
  else (read_nbt_compound ⟨data, 0⟩).map Prod.fst

/-- The component loop of `decode_cca_entity_sync`, with explicit fuel
(the fuel-sufficiency theorem shows `remaining + 1` never runs out).
While bytes remain: read a component-type string (failure is fatal), then
try the 2-byte big-endian length framing; a well-framed component slices
out its payload, repositions the cursor past it and continues; otherwise
all remaining bytes become one final `Unknown` component. -/
def decode_components_f : Nat → Cursor → Option (Except String (List CcaComponent))
  | 0, _ => none
  | fuel + 1, c =>
    if c.pos < c.data.length then
      match read_string c with
      | none => some (.error "Failed to read component type")
      | some (component_type, c1) =>
        if 2 ≤ c.data.length - c1.pos then
          if word16be c.data c1.pos + 2 ≤ c.data.length - c1.pos then
            match decode_components_f fuel
                ⟨c.data, c1.pos + 2 + word16be c.data c1.pos⟩ with
            | none => none
            | some (.error e) => some (.error e)
            | some (.ok rest) =>
              some (.ok (⟨component_type,
                match parse_nbt ((c.data.drop (c1.pos + 2)).take (word16be c.data c1.pos)) with
                | .ok nbt => ComponentData.ParsedNbt nbt
                | .error _ =>
                  ComponentData.Nbt ((c.data.drop (c1.pos + 2)).take (word16be c.data c1.pos))⟩
                :: rest))
          else some (.ok [⟨component_type, ComponentData.Unknown (c.data.drop c1.pos)⟩])
        else some (.ok [⟨component_type, ComponentData.Unknown (c.data.drop c1.pos)⟩])
    else some (.ok [])

/-- The component loop of `decode_cca_entity_sync`, instantiated with
provably sufficient fuel. -/
def decode_components (c : Cursor) : Except String (List CcaComponent) :=
  (decode_components_f (c.remaining + 1) c).getD (.error "out of fuel")

/-- `decode_cca_entity_sync`: VarInt entity id (failure is fatal), then
the component loop over the rest of the buffer. -/
def decode_cca_entity_sync (data : List Nat) : Except String CcaEntitySyncPacket :=
  match read_varint ⟨data, 0⟩ with
  | none => .error "Failed to read entity ID"
  | some (entity_id, c) =>
    (decode_components c).map fun components => ⟨entity_id, components⟩

/-- One iteration of the component loop in its well-framed case: from the
loop head at `c`, read the type string and reposition the cursor past the
2-byte length framing and the `L` payload bytes.  `Relation.ReflTransGen
LoopStep` is the set of loop heads the packet decoder visits. -/
inductive LoopStep : Cursor → Cursor → Prop where
  | mk (c : Cursor) (s : RStr) (c1 : Cursor)
      (hpos : c.pos < c.data.length)
      (hs : read_string c = some (s, c1))
      (h2 : 2 ≤ c.data.length - c1.pos)
      (hL : word16be c.data c1.pos + 2 ≤ c.data.length - c1.pos) :
      LoopStep c ⟨c.data, c1.pos + 2 + word16be c.data c1.pos⟩

/-! ## Basic facts about the byte-level readers -/

theorem readByte_some {c : Cursor} {b : Nat} {c' : Cursor}
    (h : readByte c = some (b, c')) :
    c.pos < c.data.length ∧ b = c.data.getD c.pos 0 ∧ c' = ⟨c.data, c.pos + 1⟩ := by
  unfold readByte at h
  split at h
  · simp only [Option.some.injEq, Prod.mk.injEq] at h
    exact ⟨by assumption, h.1.symm, h.2.symm⟩
  · exact absurd h (by simp)

theorem readBytes_some {n : Nat} {c : Cursor} {bs : List Nat} {c' : Cursor}
    (h : readBytes n c = some (bs, c')) :
    c.pos + n ≤ c.data.length ∧ bs = (c.data.drop c.pos).take n ∧
      c' = ⟨c.data, c.pos + n⟩ := by
  unfold readBytes at h
  split at h
  · simp only [Option.some.injEq, Prod.mk.injEq] at h
    exact ⟨by assumption, h.1.symm, h.2.symm⟩
  · exact absurd h (by simp)

theorem getD_of_drop_cons :
    ∀ (data : List Nat) (p b : Nat) (l : List Nat), data.drop p = b :: l →
      data.getD p 0 = b ∧ data.drop (p + 1) = l := by
  intro data
  induction data with
  | nil => intro p b l h; simp at h
  | cons x xs ih =>
    intro p b l h
    cases p with
    | zero =>
      simp only [List.drop_zero] at h
      cases h
      exact ⟨rfl, by simp⟩
    | succ p =>
      simp only [List.drop_succ_cons] at h
      have := ih p b l h
      exact ⟨this.1, by simpa using this.2⟩

theorem readByte_of_drop_cons {c : Cursor} {b : Nat} {l : List Nat}
    (h : c.data.drop c.pos = b :: l) :
    readByte c = some (b, ⟨c.data, c.pos + 1⟩) ∧ c.data.drop (c.pos + 1) = l := by
  have hlen : c.pos < c.data.length := by
    have := congrArg List.length h
    simp only [List.length_drop, List.length_cons] at this
    omega
  have hg := getD_of_drop_cons c.data c.pos b l h
  refine ⟨?_, hg.2⟩
  unfold readByte
  rw [if_pos hlen, hg.1]

/-! ## Bit-level helper: OR of disjoint bit ranges is addition -/

theorem lor_two_pow_eq_add {a b k : Nat} (ha : a < 2 ^ k) :
    a ||| b * 2 ^ k = a + b * 2 ^ k := by
  apply Nat.eq_of_testBit_eq
  intro i
  have hmul : b * 2 ^ k = b <<< k := (Nat.shiftLeft_eq b k).symm
  have hadd : a + b * 2 ^ k = 2 ^ k * b + a := by ring
  rw [Nat.testBit_lor, hadd, Nat.testBit_mul_pow_two_add _ ha, hmul,
    Nat.testBit_shiftLeft]
  by_cases hik : i < k
  · simp [hik, Nat.not_le.mpr hik]
  · have ha' : a.testBit i = false :=
      Nat.testBit_lt_two_pow
        (lt_of_lt_of_le ha (Nat.pow_le_pow_right (by omega) (by omega)))
    simp [hik, ha', Nat.le_of_not_lt hik]

theorem readByte_none {c : Cursor} :
    readByte c = none ↔ c.data.length ≤ c.pos := by
  unfold readByte
  split
  · simp; omega
  · simp; omega

/-! ## The VarInt loop: cursor advance, success characterization,
round-trip -/

theorem read_varint_loop_advance :
    ∀ (c : Cursor) (result shift : Nat) (v : Nat) (c' : Cursor),
      read_varint_loop c result shift = some (v, c') →
      c'.data = c.data ∧ c.pos < c'.pos ∧ c'.pos ≤ c.data.length ∧
        7 * (c'.pos - c.pos) + shift ≤ 41 := by
  intro c result shift
  induction c, result, shift using read_varint_loop.induct with
  | case1 c result shift h =>
    intro v c' hv
    rw [read_varint_loop] at hv
    simp [h] at hv
  | case2 c result shift h hb =>
    intro v c' hv
    rw [read_varint_loop] at hv
    simp [h, hb] at hv
  | case3 c result shift h b c1 hb hterm =>
    intro v c' hv
    rw [read_varint_loop, if_neg h, hb] at hv
    simp only [hterm, if_true, Option.some.injEq, Prod.mk.injEq] at hv
    obtain ⟨-, hc'⟩ := hv
    obtain ⟨hpos, -, hc1⟩ := readByte_some hb
    have hp : c'.pos = c.pos + 1 := by rw [← hc', hc1]
    have hd : c'.data = c.data := by rw [← hc', hc1]
    exact ⟨hd, by omega, by omega, by omega⟩
  | case4 c result shift h b c1 hb result' hterm ih =>
    intro v c' hv
    rw [read_varint_loop, if_neg h, hb] at hv
    simp only [hterm, if_false] at hv
    obtain ⟨hd, hlt, hle, hbound⟩ := ih v c' hv
    obtain ⟨hpos, -, hc1⟩ := readByte_some hb
    have hp : c1.pos = c.pos + 1 := by rw [hc1]
    have hdd : c1.data = c.data := by rw [hc1]
    rw [hdd] at hd hle
    rw [hp] at hlt hbound
    exact ⟨hd, by omega, hle, by omega⟩

theorem read_varint_loop_isSome :
    ∀ (c : Cursor) (result shift : Nat),
      (read_varint_loop c result shift).isSome = true ↔
      ∃ j, 7 * j + shift < 35 ∧ c.pos + j < c.data.length ∧
        c.data.getD (c.pos + j) 0 &&& 128 = 0 ∧
        ∀ i < j, c.data.getD (c.pos + i) 0 &&& 128 ≠ 0 := by
  intro c result shift
  induction c, result, shift using read_varint_loop.induct with
  | case1 c result shift h =>
    rw [read_varint_loop, if_pos h]
    constructor
    · intro hf; simp at hf
    · rintro ⟨j, hj, -⟩; omega
  | case2 c result shift h hb =>
    rw [read_varint_loop, if_neg h, hb]
    have hlen := readByte_none.mp hb
    constructor
    · intro hf; simp at hf
    · rintro ⟨j, -, hj, -⟩; omega
  | case3 c result shift h b c1 hb hterm =>
    rw [read_varint_loop, if_neg h, hb]
    obtain ⟨hpos, hbv, -⟩ := readByte_some hb
    simp only [hterm, if_true, Option.isSome_some, true_iff]
    exact ⟨0, by omega, by omega, by rw [Nat.add_zero, ← hbv]; exact hterm,
      by omega⟩
  | case4 c result shift h b c1 hb result' hterm ih =>
    rw [read_varint_loop, if_neg h, hb]
    obtain ⟨hpos, hbv, hc1⟩ := readByte_some hb
    have hp : c1.pos = c.pos + 1 := by rw [hc1]
    have hdd : c1.data = c.data := by rw [hc1]
    simp only [hterm, if_false]
    rw [ih, hp, hdd]
    constructor
    · rintro ⟨j, hsh, hlt, hstop, hcont⟩
      refine ⟨j + 1, by omega, by omega, ?_, ?_⟩
      · have he : c.pos + 1 + j = c.pos + (j + 1) := by omega
        rw [← he]; exact hstop
      · intro i hi
        cases i with
        | zero => rw [Nat.add_zero, ← hbv]; exact hterm
        | succ i' =>
          have he : c.pos + (i' + 1) = c.pos + 1 + i' := by omega
          rw [he]; exact hcont i' (by omega)
    · rintro ⟨j, hsh, hlt, hstop, hcont⟩
      cases j with
      | zero =>
        rw [Nat.add_zero, ← hbv] at hstop
        exact absurd hstop hterm
      | succ j' =>
        refine ⟨j', by omega, by omega, ?_, ?_⟩
        · have he : c.pos + 1 + j' = c.pos + (j' + 1) := by omega
          rw [he]; exact hstop
        · intro i hi
          have he : c.pos + 1 + i = c.pos + (i + 1) := by omega
          rw [he]; exact hcont (i + 1) (by omega)

theorem read_varint_loop_encode :
    ∀ (n : Nat) (c : Cursor) (result shift : Nat) (rest : List Nat),
      c.data.drop c.pos = encode_varint n ++ rest →
      shift < 35 → n * 2 ^ shift < 2 ^ 32 → result < 2 ^ shift →
      read_varint_loop c result shift =
        some (result + n * 2 ^ shift,
          ⟨c.data, c.pos + (encode_varint n).length⟩) := by
  intro n
  induction n using Nat.strong_induction_on with
  | _ n ih =>
    intro c result shift rest hdrop hshift hn hresult
    by_cases h128 : n < 128
    · rw [encode_varint, if_pos h128] at hdrop ⊢
      simp only [List.cons_append, List.nil_append] at hdrop
      obtain ⟨hread, -⟩ := readByte_of_drop_cons hdrop
      have hterm : n &&& 128 = 0 := by
        have h7 : (128 : Nat) = 2 ^ 7 := by norm_num
        rw [h7, Nat.and_two_pow, Nat.testBit_lt_two_pow (show n < 2 ^ 7 by omega)]
        simp
      have hlow : n &&& 127 = n := by
        have h7 : (127 : Nat) = 2 ^ 7 - 1 := by norm_num
        rw [h7, Nat.and_pow_two_sub_one_eq_mod, Nat.mod_eq_of_lt (by omega)]
      rw [read_varint_loop, if_neg (by omega), hread]
      simp only [hlow, hterm, if_pos, Nat.shiftLeft_eq,
        Nat.mod_eq_of_lt hn, lor_two_pow_eq_add hresult, List.length_cons,
        List.length_nil]
    · rw [encode_varint, if_neg h128] at hdrop ⊢
      simp only [List.cons_append] at hdrop
      obtain ⟨hread, hdrop'⟩ := readByte_of_drop_cons hdrop
      have hmod : n % 128 < 128 := Nat.mod_lt _ (by omega)
      have htb : (n % 128 + 128).testBit 7 = true := by
        rw [Nat.testBit_to_div_mod]
        have hdiv : (n % 128 + 128) / 2 ^ 7 = 1 := by omega
        rw [hdiv]
        rfl
      have hterm : (n % 128 + 128) &&& 128 ≠ 0 := by
        intro hc
        have h7 : (128 : Nat) = 2 ^ 7 := by norm_num
        rw [h7, Nat.and_two_pow, ← h7, htb] at hc
        simp at hc
      have hlow : (n % 128 + 128) &&& 127 = n % 128 := by
        have h7 : (127 : Nat) = 2 ^ 7 - 1 := by norm_num
        rw [h7, Nat.and_pow_two_sub_one_eq_mod]
        omega
      have hsh7 : shift + 7 < 32 := by
        have h1 : 2 ^ (shift + 7) ≤ n * 2 ^ shift := by
          rw [pow_add]
          calc (2 : Nat) ^ shift * 2 ^ 7 = 2 ^ 7 * 2 ^ shift := by ring
          _ ≤ n * 2 ^ shift := Nat.mul_le_mul_right _ (by omega)
        have h2 : (2 : Nat) ^ (shift + 7) < 2 ^ 32 := lt_of_le_of_lt h1 hn
        exact (Nat.pow_lt_pow_iff_right (by omega)).mp h2
      have hdiv128 : n / 128 * 2 ^ 7 ≤ n := by
        have := Nat.div_mul_le_self n 128
        omega
      have hn' : n / 128 * 2 ^ (shift + 7) < 2 ^ 32 := by
        have hle : n / 128 * 2 ^ (shift + 7) ≤ n * 2 ^ shift := by
          rw [pow_add]
          calc n / 128 * (2 ^ shift * 2 ^ 7) = n / 128 * 2 ^ 7 * 2 ^ shift := by
                ring
          _ ≤ n * 2 ^ shift := Nat.mul_le_mul_right _ hdiv128
        omega
      have hresult' : result + n % 128 * 2 ^ shift < 2 ^ (shift + 7) := by
        have hm : n % 128 * 2 ^ shift ≤ 127 * 2 ^ shift :=
          Nat.mul_le_mul_right _ (by omega)
        have heq : (2 : Nat) ^ (shift + 7) = 2 ^ shift + 127 * 2 ^ shift := by
          rw [pow_add]
          ring
        omega
      have hmodlt : n % 128 * 2 ^ shift < 2 ^ 32 :=
        lt_of_le_of_lt (Nat.mul_le_mul_right _ (by omega)) hn
      rw [read_varint_loop, if_neg (by omega), hread]
      simp only [hlow, hterm, if_false, Nat.shiftLeft_eq,
        Nat.mod_eq_of_lt hmodlt, lor_two_pow_eq_add hresult]
      have hrec := ih (n / 128) (Nat.div_lt_self (by omega) (by omega))
        ⟨c.data, c.pos + 1⟩ (result + n % 128 * 2 ^ shift) (shift + 7) rest
        (by simpa using hdrop') (by omega) hn' hresult'
      simp only at hrec
      rw [hrec]
      have hval : result + n % 128 * 2 ^ shift + n / 128 * 2 ^ (shift + 7) =
          result + n * 2 ^ shift := by
        have hsum : n % 128 * 2 ^ shift + n / 128 * 2 ^ (shift + 7) =
            n * 2 ^ shift := by
          rw [pow_add]
          calc n % 128 * 2 ^ shift + n / 128 * (2 ^ shift * 2 ^ 7)
              = (2 ^ 7 * (n / 128) + n % 128) * 2 ^ shift := by ring
          _ = (128 * (n / 128) + n % 128) * 2 ^ shift := by norm_num
          _ = n * 2 ^ shift := by rw [Nat.div_add_mod]
        omega
      rw [hval]
      simp only [List.length_cons]
      have hpos : c.pos + 1 + (encode_varint (n / 128)).length =
          c.pos + ((encode_varint (n / 128)).length + 1) := by omega
      rw [hpos]

/-! ## Cursor advance for the primitive readers -/

theorem read_varint_advance {c : Cursor} {v : Int} {c' : Cursor}
    (h : read_varint c = some (v, c')) :
    c'.data = c.data ∧ c.pos < c'.pos ∧ c'.pos ≤ c.data.length ∧
      c'.pos ≤ c.pos + 5 := by
  unfold read_varint at h
  cases hl : read_varint_loop c 0 0 with
  | none => rw [hl] at h; simp at h
  | some p =>
    obtain ⟨p1, p2⟩ := p
    rw [hl] at h
    simp only [Option.map_some', Option.some.injEq, Prod.mk.injEq] at h
    obtain ⟨-, hc⟩ := h
    obtain ⟨hd, hlt, hle, hb⟩ := read_varint_loop_advance c 0 0 p1 p2 hl
    subst hc
    exact ⟨hd, hlt, hle, by omega⟩

theorem read_varint_u32_advance {c : Cursor} {v : Nat} {c' : Cursor}
    (h : read_varint_u32 c = some (v, c')) :
    c'.data = c.data ∧ c.pos < c'.pos ∧ c'.pos ≤ c.data.length ∧
      c'.pos ≤ c.pos + 5 := by
  unfold read_varint_u32 at h
  cases hv : read_varint c with
  | none => rw [hv] at h; simp at h
  | some p =>
    obtain ⟨v1, c1⟩ := p
    rw [hv] at h
    simp only [Option.map_some', Option.some.injEq, Prod.mk.injEq] at h
    obtain ⟨-, hc⟩ := h
    subst hc
    exact read_varint_advance hv

theorem read_string_advance {c : Cursor} {s : RStr} {c' : Cursor}
    (h : read_string c = some (s, c')) :
    c'.data = c.data ∧ c.pos < c'.pos ∧ c'.pos ≤ c.data.length := by
  unfold read_string at h
  cases hv : read_varint c with
  | none => rw [hv] at h; simp at h
  | some p =>
    obtain ⟨v, c1⟩ := p
    simp only [hv] at h
    cases hb : readBytes (usizeOfI32 v) c1 with
    | none => rw [hb] at h; simp at h
    | some q =>
      obtain ⟨bs, c2⟩ := q
      simp only [hb] at h
      by_cases hu : validateUtf8 bs = true
      · rw [if_pos hu] at h
        simp only [Option.some.injEq, Prod.mk.injEq] at h
        obtain ⟨-, hc⟩ := h
        subst hc
        obtain ⟨hle1, -, hc2⟩ := readBytes_some hb
        obtain ⟨hd1, hlt1, -, -⟩ := read_varint_advance hv
        have hp2 : c2.pos = c1.pos + usizeOfI32 v := by rw [hc2]
        have hd2 : c2.data = c1.data := by rw [hc2]
        rw [hd2, hd1]
        refine ⟨rfl, by omega, ?_⟩
        rw [hp2, ← hd1]
        exact hle1
      · rw [if_neg hu] at h
        simp at h

theorem read_string_byte_prefix_advance {c : Cursor} {s : RStr} {c' : Cursor}
    (h : read_string_byte_prefix c = some (s, c')) :
    c'.data = c.data ∧ c.pos < c'.pos ∧ c'.pos ≤ c.data.length := by
  unfold read_string_byte_prefix at h
  cases hv : readByte c with
  | none => rw [hv] at h; simp at h
  | some p =>
    obtain ⟨b, c1⟩ := p
    simp only [hv] at h
    cases hb : readBytes b c1 with
    | none => rw [hb] at h; simp at h
    | some q =>
      obtain ⟨bs, c2⟩ := q
      simp only [hb] at h
      by_cases hu : validateUtf8 bs = true
      · rw [if_pos hu] at h
        simp only [Option.some.injEq, Prod.mk.injEq] at h
        obtain ⟨-, hc⟩ := h
        subst hc
        obtain ⟨hle1, -, hc2⟩ := readBytes_some hb
        obtain ⟨hpos, -, hc1⟩ := readByte_some hv
        have hp1 : c1.pos = c.pos + 1 := by rw [hc1]
        have hd1 : c1.data = c.data := by rw [hc1]
        have hp2 : c2.pos = c1.pos + b := by rw [hc2]
        have hd2 : c2.data = c1.data := by rw [hc2]
        rw [hd2, hd1]
        refine ⟨rfl, by omega, ?_⟩
        rw [hp2, ← hd1]
        exact hle1
      · rw [if_neg hu] at h
        simp at h

theorem read_nbt_string_advance {c : Cursor} {s : RStr} {c' : Cursor}
    (h : read_nbt_string c = .ok (s, c')) :
    c'.data = c.data ∧ c.pos + 2 ≤ c'.pos ∧ c'.pos ≤ c.data.length := by
  unfold read_nbt_string at h
  cases h2 : readBytes 2 c with
  | none => rw [h2] at h; simp at h
  | some p =>
    obtain ⟨lenBytes, c1⟩ := p
    simp only [h2] at h
    cases hb : readBytes (beNat lenBytes) c1 with
    | none => rw [hb] at h; simp at h
    | some q =>
      obtain ⟨bs, c2⟩ := q
      simp only [hb] at h
      by_cases hu : validateUtf8 bs = true
      · rw [if_pos hu] at h
        simp only [Except.ok.injEq, Prod.mk.injEq] at h
        obtain ⟨-, hc⟩ := h
        subst hc
        obtain ⟨hle1, -, hc1⟩ := readBytes_some h2
        obtain ⟨hle2, -, hc2⟩ := readBytes_some hb
        have hp1 : c1.pos = c.pos + 2 := by rw [hc1]
        have hd1 : c1.data = c.data := by rw [hc1]
        have hp2 : c2.pos = c1.pos + beNat lenBytes := by rw [hc2]
        have hd2 : c2.data = c1.data := by rw [hc2]
        rw [hd2, hd1]
        refine ⟨rfl, by omega, ?_⟩
        rw [hp2, ← hd1]
        omega
      · rw [if_neg hu] at h
        simp at h

theorem read_be_items_advance (w : Nat) :
    ∀ (n : Nat) (c : Cursor) (l : List Nat) (c' : Cursor),
      read_be_items w n c = .ok (l, c') →
      c'.data = c.data ∧ c.pos ≤ c'.pos ∧
        (c' = c ∨ c'.pos ≤ c.data.length) := by
  intro n
  induction n with
  | zero =>
    intro c l c' h
    unfold read_be_items at h
    simp only [Except.ok.injEq, Prod.mk.injEq] at h
    obtain ⟨-, hc⟩ := h
    subst hc
    exact ⟨rfl, le_refl _, Or.inl rfl⟩
  | succ n ih =>
    intro c l c' h
    unfold read_be_items at h
    cases hb : readBytes w c with
    | none => rw [hb] at h; simp at h
    | some p =>
      obtain ⟨bs, c1⟩ := p
      simp only [hb] at h
      cases hr : read_be_items w n c1 with
      | error e => rw [hr] at h; simp at h
      | ok q =>
        obtain ⟨l2, c2⟩ := q
        simp only [hr] at h
        simp only [Except.ok.injEq, Prod.mk.injEq] at h
        obtain ⟨-, hc⟩ := h
        subst hc
        obtain ⟨hle1, -, hc1⟩ := readBytes_some hb
        have hp1 : c1.pos = c.pos + w := by rw [hc1]
        have hd1 : c1.data = c.data := by rw [hc1]
        obtain ⟨hd2, hle2, hor⟩ := ih c1 l2 c2 hr
        rw [hd1] at hd2
        refine ⟨hd2, by omega, Or.inr ?_⟩
        rcases hor with hor | hor
        · rw [hor, hp1]
          exact hle1
        · rw [hd1] at hor
          exact hor

theorem readByte_advance {c : Cursor} {b : Nat} {c1 : Cursor}
    (h : readByte c = some (b, c1)) :
    c1.data = c.data ∧ c1.pos = c.pos + 1 ∧ c1.pos ≤ c.data.length := by
  obtain ⟨hlt, -, hc⟩ := readByte_some h
  exact ⟨by rw [hc], by rw [hc], by rw [hc]; exact hlt⟩

theorem readBytes_advance {n : Nat} {c : Cursor} {bs : List Nat} {c1 : Cursor}
    (h : readBytes n c = some (bs, c1)) :
    c1.data = c.data ∧ c1.pos = c.pos + n ∧ c1.pos ≤ c.data.length := by
  obtain ⟨hle, -, hc⟩ := readBytes_some h
  exact ⟨by rw [hc], by rw [hc], by rw [hc]; exact hle⟩

/-! ## The NBT readers only move the cursor forward, staying in bounds,
and every successful compound or payload read consumes at least one
byte -/

theorem nbt_readers_advance :
    ∀ fuel : Nat,
      (∀ c r c', read_nbt_compound_f fuel c = some (.ok (r, c')) →
        c'.data = c.data ∧ c.pos < c'.pos ∧ c'.pos ≤ c.data.length) ∧
      (∀ c t v c', read_nbt_payload_f fuel c t = some (.ok (v, c')) →
        c'.data = c.data ∧ c.pos < c'.pos ∧ c'.pos ≤ c.data.length) ∧
      (∀ n c t l c', read_nbt_list_f fuel c t n = some (.ok (l, c')) →
        c'.data = c.data ∧ c.pos ≤ c'.pos ∧ (c' = c ∨ c'.pos ≤ c.data.length)) := by
  intro fuel
  induction fuel using Nat.strong_induction_on with
  | _ fuel ihf =>
    have hpay : ∀ c t v c', read_nbt_payload_f fuel c t = some (.ok (v, c')) →
        c'.data = c.data ∧ c.pos < c'.pos ∧ c'.pos ≤ c.data.length := by
      cases fuel with
      | zero =>
        intro c t v c' h
        rw [read_nbt_payload_f] at h
        exact Option.noConfusion h
      | succ g =>
        intro c t v c' h
        rcases t with _|_|_|_|_|_|_|_|_|_|_|_|_|t
        -- tag 0: unknown-tag branch
        · rw [read_nbt_payload_f] at h
          all_goals try omega
          simp at h
        -- tag 1
        · rw [read_nbt_payload_f] at h
          cases hb : readBytes 1 c with
          | none => simp only [hb] at h; simp at h
          | some p =>
            obtain ⟨bs, c1⟩ := p
            simp only [hb, Option.some.injEq, Except.ok.injEq, Prod.mk.injEq] at h
            obtain ⟨-, hc⟩ := h
            subst hc
            obtain ⟨hd, hp, hle⟩ := readBytes_advance hb
            exact ⟨hd, by omega, hle⟩
        -- tag 2
        · rw [read_nbt_payload_f] at h
          cases hb : readBytes 2 c with
          | none => simp only [hb] at h; simp at h
          | some p =>
            obtain ⟨bs, c1⟩ := p
            simp only [hb, Option.some.injEq, Except.ok.injEq, Prod.mk.injEq] at h
            obtain ⟨-, hc⟩ := h
            subst hc
            obtain ⟨hd, hp, hle⟩ := readBytes_advance hb
            exact ⟨hd, by omega, hle⟩
        -- tag 3
        · rw [read_nbt_payload_f] at h
          cases hb : readBytes 4 c with
          | none => simp only [hb] at h; simp at h
          | some p =>
            obtain ⟨bs, c1⟩ := p
            simp only [hb, Option.some.injEq, Except.ok.injEq, Prod.mk.injEq] at h
            obtain ⟨-, hc⟩ := h
            subst hc
            obtain ⟨hd, hp, hle⟩ := readBytes_advance hb
            exact ⟨hd, by omega, hle⟩
        -- tag 4
        · rw [read_nbt_payload_f] at h
          cases hb : readBytes 8 c with
          | none => simp only [hb] at h; simp at h
          | some p =>
            obtain ⟨bs, c1⟩ := p
            simp only [hb, Option.some.injEq, Except.ok.injEq, Prod.mk.injEq] at h
            obtain ⟨-, hc⟩ := h
            subst hc
            obtain ⟨hd, hp, hle⟩ := readBytes_advance hb
            exact ⟨hd, by omega, hle⟩
        -- tag 5
        · rw [read_nbt_payload_f] at h
          cases hb : readBytes 4 c with
          | none => simp only [hb] at h; simp at h
          | some p =>
            obtain ⟨bs, c1⟩ := p
            simp only [hb, Option.some.injEq, Except.ok.injEq, Prod.mk.injEq] at h
            obtain ⟨-, hc⟩ := h
            subst hc
            obtain ⟨hd, hp, hle⟩ := readBytes_advance hb
            exact ⟨hd, by omega, hle⟩
        -- tag 6
        · rw [read_nbt_payload_f] at h
          cases hb : readBytes 8 c with
          | none => simp only [hb] at h; simp at h
          | some p =>
            obtain ⟨bs, c1⟩ := p
            simp only [hb, Option.some.injEq, Except.ok.injEq, Prod.mk.injEq] at h
            obtain ⟨-, hc⟩ := h
            subst hc
            obtain ⟨hd, hp, hle⟩ := readBytes_advance hb
            exact ⟨hd, by omega, hle⟩
        -- tag 7: byte array
        · rw [read_nbt_payload_f] at h
          cases hb : readBytes 4 c with
          | none => simp only [hb] at h; simp at h
          | some p =>
            obtain ⟨lenBytes, c1⟩ := p
            simp only [hb] at h
            cases hb2 : readBytes (usizeOfI32 (toSigned 32 (beNat lenBytes))) c1 with
            | none => simp only [hb2] at h; simp at h
            | some q =>
              obtain ⟨bs, c2⟩ := q
              simp only [hb2, Option.some.injEq, Except.ok.injEq, Prod.mk.injEq] at h
              obtain ⟨-, hc⟩ := h
              subst hc
              obtain ⟨hd1, hp1, -⟩ := readBytes_advance hb
              obtain ⟨hd2, hp2, hle2⟩ := readBytes_advance hb2
              rw [hd1] at hd2 hle2
              exact ⟨hd2, by omega, hle2⟩
        -- tag 8: string
        · rw [read_nbt_payload_f] at h
          cases hs : read_nbt_string c with
          | error e => simp only [hs] at h; simp at h
          | ok q =>
            obtain ⟨s, c1⟩ := q
            simp only [hs, Option.some.injEq, Except.ok.injEq, Prod.mk.injEq] at h
            obtain ⟨-, hc⟩ := h
            subst hc
            obtain ⟨hd, hp, hle⟩ := read_nbt_string_advance hs
            exact ⟨hd, by omega, hle⟩
        -- tag 9: list
        · rw [read_nbt_payload_f] at h
          cases hb : readByte c with
          | none => simp only [hb] at h; simp at h
          | some p =>
            obtain ⟨listType, c1⟩ := p
            simp only [hb] at h
            cases hb2 : readBytes 4 c1 with
            | none => simp only [hb2] at h; simp at h
            | some q =>
              obtain ⟨lenBytes, c2⟩ := q
              simp only [hb2] at h
              cases hl : read_nbt_list_f g c2 listType
                  (usizeOfI32 (toSigned 32 (beNat lenBytes))) with
              | none => simp only [hl] at h; exact Option.noConfusion h
              | some er =>
                cases er with
                | error e => simp only [hl] at h; simp at h
                | ok q2 =>
                  obtain ⟨items, c3⟩ := q2
                  simp only [hl, Option.some.injEq, Except.ok.injEq,
                    Prod.mk.injEq] at h
                  obtain ⟨-, hc⟩ := h
                  subst hc
                  obtain ⟨hd1, hp1, -⟩ := readByte_advance hb
                  obtain ⟨hd2, hp2, hle2⟩ := readBytes_advance hb2
                  obtain ⟨hd3, hp3, hor⟩ := (ihf g (by omega)).2.2 _ c2 listType
                    items c3 hl
                  rw [hd2, hd1] at hd3
                  rw [hd1] at hle2
                  refine ⟨hd3, by omega, ?_⟩
                  rcases hor with he | hbd
                  · rw [he]
                    exact hle2
                  · rw [hd2, hd1] at hbd
                    exact hbd
        -- tag 10: nested compound
        · rw [read_nbt_payload_f] at h
          cases hcm : read_nbt_compound_f g c with
          | none => simp only [hcm] at h; exact Option.noConfusion h
          | some er =>
            cases er with
            | error e => simp only [hcm] at h; simp at h
            | ok q =>
              obtain ⟨comp, c1⟩ := q
              simp only [hcm, Option.some.injEq, Except.ok.injEq,
                Prod.mk.injEq] at h
              obtain ⟨-, hc⟩ := h
              subst hc
              exact (ihf g (by omega)).1 c comp c1 hcm
        -- tag 11: int array
        · rw [read_nbt_payload_f] at h
          cases hb : readBytes 4 c with
          | none => simp only [hb] at h; simp at h
          | some p =>
            obtain ⟨lenBytes, c1⟩ := p
            simp only [hb] at h
            cases hi : read_be_items 4 (usizeOfI32 (toSigned 32 (beNat lenBytes))) c1 with
            | error e => simp only [hi] at h; simp at h
            | ok q =>
              obtain ⟨l2, c2⟩ := q
              simp only [hi, Option.some.injEq, Except.ok.injEq, Prod.mk.injEq] at h
              obtain ⟨-, hc⟩ := h
              subst hc
              obtain ⟨hd1, hp1, hle1⟩ := readBytes_advance hb
              obtain ⟨hd2, hp2, hor⟩ := read_be_items_advance 4 _ c1 l2 c2 hi
              rw [hd1] at hd2
              refine ⟨hd2, by omega, ?_⟩
              rcases hor with he | hbd
              · rw [he]
                exact hle1
              · rw [hd1] at hbd
                exact hbd
        -- tag 12: long array
        · rw [read_nbt_payload_f] at h
          cases hb : readBytes 4 c with
          | none => simp only [hb] at h; simp at h
          | some p =>
            obtain ⟨lenBytes, c1⟩ := p
            simp only [hb] at h
            cases hi : read_be_items 8 (usizeOfI32 (toSigned 32 (beNat lenBytes))) c1 with
            | error e => simp only [hi] at h; simp at h
            | ok q =>
              obtain ⟨l2, c2⟩ := q
              simp only [hi, Option.some.injEq, Except.ok.injEq, Prod.mk.injEq] at h
              obtain ⟨-, hc⟩ := h
              subst hc
              obtain ⟨hd1, hp1, hle1⟩ := readBytes_advance hb
              obtain ⟨hd2, hp2, hor⟩ := read_be_items_advance 8 _ c1 l2 c2 hi
              rw [hd1] at hd2
              refine ⟨hd2, by omega, ?_⟩
              rcases hor with he | hbd
              · rw [he]
                exact hle1
              · rw [hd1] at hbd
                exact hbd
        -- tag ≥ 13: unknown-tag branch
        · rw [read_nbt_payload_f] at h
          all_goals try omega
          simp at h
    have hcomp : ∀ c r c', read_nbt_compound_f fuel c = some (.ok (r, c')) →
        c'.data = c.data ∧ c.pos < c'.pos ∧ c'.pos ≤ c.data.length := by
      cases fuel with
      | zero =>
        intro c r c' h
        rw [read_nbt_compound_f] at h
        exact Option.noConfusion h
      | succ g =>
        intro c r c' h
        rw [read_nbt_compound_f] at h
        cases hb : readByte c with
        | none => simp only [hb] at h; simp at h
        | some p =>
          obtain ⟨t, c1⟩ := p
          simp only [hb] at h
          by_cases ht : t = 0
          · rw [if_pos ht] at h
            simp only [Option.some.injEq, Except.ok.injEq, Prod.mk.injEq] at h
            obtain ⟨-, hc⟩ := h
            subst hc
            obtain ⟨hd, hp, hle⟩ := readByte_advance hb
            exact ⟨hd, by omega, hle⟩
          · rw [if_neg ht] at h
            cases hs : read_nbt_string c1 with
            | error e => simp only [hs] at h; simp at h
            | ok q =>
              obtain ⟨name, c2⟩ := q
              simp only [hs] at h
              cases hpl : read_nbt_payload_f g c2 t with
              | none => simp only [hpl] at h; exact Option.noConfusion h
              | some er =>
                cases er with
                | error e => simp only [hpl] at h; simp at h
                | ok q2 =>
                  obtain ⟨tv, c3⟩ := q2
                  simp only [hpl] at h
                  cases hrec : read_nbt_compound_f g c3 with
                  | none => simp only [hrec] at h; exact Option.noConfusion h
                  | some er2 =>
                    cases er2 with
                    | error e => simp only [hrec] at h; simp at h
                    | ok q3 =>
                      obtain ⟨rest, c4⟩ := q3
                      simp only [hrec, Option.some.injEq, Except.ok.injEq,
                        Prod.mk.injEq] at h
                      obtain ⟨-, hc⟩ := h
                      subst hc
                      obtain ⟨hd1, hp1, -⟩ := readByte_advance hb
                      obtain ⟨hd2, hp2, -⟩ := read_nbt_string_advance hs
                      obtain ⟨hd3, hp3, -⟩ := (ihf g (by omega)).2.1 c2 t tv c3 hpl
                      obtain ⟨hd4, hp4, hle4⟩ := (ihf g (by omega)).1 c3 rest c4 hrec
                      rw [hd3, hd2, hd1] at hd4 hle4
                      exact ⟨hd4, by omega, hle4⟩
    have hlist : ∀ n c t l c', read_nbt_list_f fuel c t n = some (.ok (l, c')) →
        c'.data = c.data ∧ c.pos ≤ c'.pos ∧ (c' = c ∨ c'.pos ≤ c.data.length) := by
      intro n
      induction n with
      | zero =>
        intro c t l c' h
        rw [read_nbt_list_f] at h
        simp only [Option.some.injEq, Except.ok.injEq, Prod.mk.injEq] at h
        obtain ⟨-, hc⟩ := h
        subst hc
        exact ⟨rfl, le_refl _, Or.inl rfl⟩
      | succ n ihn =>
        intro c t l c' h
        rw [read_nbt_list_f] at h
        cases hp : read_nbt_payload_f fuel c t with
        | none => simp only [hp] at h; exact Option.noConfusion h
        | some er =>
          cases er with
          | error e => simp only [hp] at h; simp at h
          | ok q =>
            obtain ⟨item, c1⟩ := q
            simp only [hp] at h
            cases hr : read_nbt_list_f fuel c1 t n with
            | none => simp only [hr] at h; exact Option.noConfusion h
            | some er2 =>
              cases er2 with
              | error e => simp only [hr] at h; simp at h
              | ok q2 =>
                obtain ⟨items, c2⟩ := q2
                simp only [hr, Option.some.injEq, Except.ok.injEq,
                  Prod.mk.injEq] at h
                obtain ⟨-, hc⟩ := h
                subst hc
                obtain ⟨hd1, hp1, hle1⟩ := hpay c t item c1 hp
                obtain ⟨hd2, hp2, hor⟩ := ihn c1 t items c2 hr
                rw [hd1] at hd2
                refine ⟨hd2, by omega, Or.inr ?_⟩
                rcases hor with he | hbd
                · rw [he]
                  exact hle1
                · rw [hd1] at hbd
                  exact hbd
    exact ⟨hcomp, hpay, hlist⟩

/-! ## Fuel sufficiency: `2 * remaining + 2` fuel never runs out, because
every payload or compound entry consumes at least one byte -/

theorem nbt_readers_sufficient :
    ∀ fuel : Nat,
      (∀ c, 2 * c.remaining < fuel →
        (read_nbt_compound_f fuel c).isSome = true) ∧
      (∀ c t, 2 * c.remaining + 1 < fuel →
        (read_nbt_payload_f fuel c t).isSome = true) ∧
      (∀ n c t, 2 * c.remaining + 1 < fuel →
        (read_nbt_list_f fuel c t n).isSome = true) := by
  intro fuel
  induction fuel using Nat.strong_induction_on with
  | _ fuel ihf =>
    have hpayS : ∀ c t, 2 * c.remaining + 1 < fuel →
        (read_nbt_payload_f fuel c t).isSome = true := by
      cases fuel with
      | zero => intro c t hlt; omega
      | succ g =>
        intro c t hlt
        simp only [Cursor.remaining] at hlt
        rcases t with _|_|_|_|_|_|_|_|_|_|_|_|_|t
        · rw [read_nbt_payload_f]
          all_goals try omega
          simp
        · rw [read_nbt_payload_f]; simp
        · rw [read_nbt_payload_f]; simp
        · rw [read_nbt_payload_f]; simp
        · rw [read_nbt_payload_f]; simp
        · rw [read_nbt_payload_f]; simp
        · rw [read_nbt_payload_f]; simp
        · rw [read_nbt_payload_f]; simp
        · rw [read_nbt_payload_f]; simp
        -- tag 9: list
        · rw [read_nbt_payload_f]
          cases hb : readByte c with
          | none => simp
          | some p =>
            obtain ⟨listType, c1⟩ := p
            simp only []
            cases hb2 : readBytes 4 c1 with
            | none => simp
            | some q =>
              obtain ⟨lenBytes, c2⟩ := q
              simp only []
              obtain ⟨hd1, hp1, -⟩ := readByte_advance hb
              obtain ⟨hd2, hp2, hle2⟩ := readBytes_advance hb2
              have hlst : (read_nbt_list_f g c2 listType
                  (usizeOfI32 (toSigned 32 (beNat lenBytes)))).isSome = true := by
                apply (ihf g (by omega)).2.2
                simp only [Cursor.remaining]
                rw [hd2, hd1]
                rw [hd1] at hle2
                omega
              obtain ⟨r, hr⟩ := Option.isSome_iff_exists.mp hlst
              rw [hr]
              cases r with
              | error e => simp
              | ok q2 => simp
        -- tag 10: nested compound
        · rw [read_nbt_payload_f]
          have hcm : (read_nbt_compound_f g c).isSome = true := by
            apply (ihf g (by omega)).1
            simp only [Cursor.remaining]
            omega
          obtain ⟨r, hr⟩ := Option.isSome_iff_exists.mp hcm
          rw [hr]
          cases r with
          | error e => simp
          | ok q => simp
        · rw [read_nbt_payload_f]; simp
        · rw [read_nbt_payload_f]; simp
        · rw [read_nbt_payload_f]
          all_goals try omega
          simp
    have hcompS : ∀ c, 2 * c.remaining < fuel →
        (read_nbt_compound_f fuel c).isSome = true := by
      cases fuel with
      | zero => intro c hlt; omega
      | succ g =>
        intro c hlt
        simp only [Cursor.remaining] at hlt
        rw [read_nbt_compound_f]
        cases hb : readByte c with
        | none => simp
        | some p =>
          obtain ⟨t, c1⟩ := p
          simp only []
          by_cases ht : t = 0
          · rw [if_pos ht]; simp
          · rw [if_neg ht]
            cases hs : read_nbt_string c1 with
            | error e => simp
            | ok q =>
              obtain ⟨name, c2⟩ := q
              simp only []
              obtain ⟨hd1, hp1, -⟩ := readByte_advance hb
              obtain ⟨hd2, hp2, hle2⟩ := read_nbt_string_advance hs
              rw [hd1] at hd2 hle2
              have hpl : (read_nbt_payload_f g c2 t).isSome = true := by
                apply (ihf g (by omega)).2.1
                simp only [Cursor.remaining]
                rw [hd2]
                omega
              obtain ⟨r, hr⟩ := Option.isSome_iff_exists.mp hpl
              rw [hr]
              cases r with
              | error e => simp
              | ok q2 =>
                obtain ⟨tv, c3⟩ := q2
                simp only []
                obtain ⟨hd3, hp3, hle3⟩ := (nbt_readers_advance g).2.1 c2 t tv c3 hr
                rw [hd2] at hd3 hle3
                have hrec : (read_nbt_compound_f g c3).isSome = true := by
                  apply (ihf g (by omega)).1
                  simp only [Cursor.remaining]
                  rw [hd3]
                  omega
                obtain ⟨r2, hr2⟩ := Option.isSome_iff_exists.mp hrec
                rw [hr2]
                cases r2 with
                | error e => simp
                | ok q3 => simp
    have hlistS : ∀ n c t, 2 * c.remaining + 1 < fuel →
        (read_nbt_list_f fuel c t n).isSome = true := by
      intro n
      induction n with
      | zero =>
        intro c t hlt
        rw [read_nbt_list_f]
        simp
      | succ n ihn =>
        intro c t hlt
        rw [read_nbt_list_f]
        have hpl : (read_nbt_payload_f fuel c t).isSome = true := hpayS c t hlt
        obtain ⟨r, hr⟩ := Option.isSome_iff_exists.mp hpl
        rw [hr]
        cases r with
        | error e => simp
        | ok q =>
          obtain ⟨item, c1⟩ := q
          simp only []
          obtain ⟨hd1, hp1, hle1⟩ := (nbt_readers_advance fuel).2.1 c t item c1 hr
          have hrest : (read_nbt_list_f fuel c1 t n).isSome = true := by
            apply ihn
            simp only [Cursor.remaining] at hlt ⊢
            rw [hd1]
            omega
          obtain ⟨r2, hr2⟩ := Option.isSome_iff_exists.mp hrest
          rw [hr2]
          cases r2 with
          | error e => simp
          | ok q2 => simp
    exact ⟨hcompS, hpayS, hlistS⟩

/-! ## Fuel facts for the packet-decoder component loop -/

theorem decode_components_f_sufficient :
    ∀ fuel : Nat, ∀ c : Cursor, c.remaining < fuel →
      (decode_components_f fuel c).isSome = true := by
  intro fuel
  induction fuel with
  | zero => intro c hlt; omega
  | succ g ih =>
    intro c hlt
    simp only [Cursor.remaining] at hlt
    rw [decode_components_f]
    by_cases hpos : c.pos < c.data.length
    · rw [if_pos hpos]
      cases hs : read_string c with
      | none => simp
      | some p =>
        obtain ⟨ty, c1⟩ := p
        simp only []
        by_cases h2 : 2 ≤ c.data.length - c1.pos
        · rw [if_pos h2]
          by_cases hL : word16be c.data c1.pos + 2 ≤ c.data.length - c1.pos
          · rw [if_pos hL]
            obtain ⟨hd1, hp1, hle1⟩ := read_string_advance hs
            have hrec : (decode_components_f g
                ⟨c.data, c1.pos + 2 + word16be c.data c1.pos⟩).isSome = true := by
              apply ih
              simp only [Cursor.remaining]
              omega
            obtain ⟨r, hr⟩ := Option.isSome_iff_exists.mp hrec
            rw [hr]
            cases r with
            | error e => simp
            | ok rest => simp
          · rw [if_neg hL]; simp
        · rw [if_neg h2]; simp
    · rw [if_neg hpos]; simp

theorem decode_components_f_irrelevant :
    ∀ f1 : Nat, ∀ (f2 : Nat) (c : Cursor), c.remaining < f1 → c.remaining < f2 →
      decode_components_f f1 c = decode_components_f f2 c := by
  intro f1
  induction f1 using Nat.strong_induction_on with
  | _ f1 ih =>
    intro f2 c h1 h2
    cases f1 with
    | zero => omega
    | succ a =>
      cases f2 with
      | zero => omega
      | succ b =>
        simp only [Cursor.remaining] at h1 h2
        rw [decode_components_f]
        rw [decode_components_f]
        by_cases hpos : c.pos < c.data.length
        · rw [if_pos hpos, if_pos hpos]
          cases hs : read_string c with
          | none => rfl
          | some p =>
            obtain ⟨ty, c1⟩ := p
            simp only []
            by_cases hg2 : 2 ≤ c.data.length - c1.pos
            · rw [if_pos hg2, if_pos hg2]
              by_cases hL : word16be c.data c1.pos + 2 ≤ c.data.length - c1.pos
              · rw [if_pos hL, if_pos hL]
                obtain ⟨hd1, hp1, hle1⟩ := read_string_advance hs
                rw [ih a (by omega) b ⟨c.data, c1.pos + 2 + word16be c.data c1.pos⟩
                  (by simp only [Cursor.remaining]; omega)
                  (by simp only [Cursor.remaining]; omega)]
              · rw [if_neg hL, if_neg hL]
            · rw [if_neg hg2, if_neg hg2]
        · rw [if_neg hpos, if_neg hpos]

theorem decode_components_eq {c : Cursor} {r : Except String (List CcaComponent)}
    (h : decode_components_f (c.remaining + 1) c = some r) :
    decode_components c = r := by
  unfold decode_components
  rw [h]
  rfl

/-! ## Branch equations for the component loop -/

theorem decode_components_nil {c : Cursor} (h : c.data.length ≤ c.pos) :
    decode_components c = .ok [] := by
  apply decode_components_eq
  rw [decode_components_f, if_neg (by omega)]

theorem decode_components_type_fail {c : Cursor} (hpos : c.pos < c.data.length)
    (hs : read_string c = none) :
    decode_components c = .error "Failed to read component type" := by
  apply decode_components_eq
  rw [decode_components_f, if_pos hpos]
  simp only [hs]

theorem decode_components_framed {c : Cursor} {ty : RStr} {c1 : Cursor}
    (hpos : c.pos < c.data.length)
    (hs : read_string c = some (ty, c1))
    (h2 : 2 ≤ c.data.length - c1.pos)
    (hL : word16be c.data c1.pos + 2 ≤ c.data.length - c1.pos) :
    decode_components c =
      (decode_components ⟨c.data, c1.pos + 2 + word16be c.data c1.pos⟩).map
        (fun rest =>
          ⟨ty,
            match parse_nbt
                ((c.data.drop (c1.pos + 2)).take (word16be c.data c1.pos)) with
            | .ok nbt => ComponentData.ParsedNbt nbt
            | .error _ =>
              ComponentData.Nbt
                ((c.data.drop (c1.pos + 2)).take (word16be c.data c1.pos))⟩
          :: rest) := by
  obtain ⟨hd1, hp1, hle1⟩ := read_string_advance hs
  have hrem2 : (⟨c.data, c1.pos + 2 + word16be c.data c1.pos⟩ : Cursor).remaining <
      c.remaining := by
    simp only [Cursor.remaining]
    omega
  have hsome := decode_components_f_sufficient c.remaining
    ⟨c.data, c1.pos + 2 + word16be c.data c1.pos⟩ hrem2
  obtain ⟨r, hr⟩ := Option.isSome_iff_exists.mp hsome
  have hr' : decode_components ⟨c.data, c1.pos + 2 + word16be c.data c1.pos⟩ = r := by
    apply decode_components_eq
    rw [← hr]
    apply decode_components_f_irrelevant
    · simp only [Cursor.remaining] at hrem2 ⊢; omega
    · exact hrem2
  apply decode_components_eq
  rw [decode_components_f, if_pos hpos]
  simp only [hs]
  rw [if_pos h2, if_pos hL, hr, hr']
  cases r with
  | error e => rfl
  | ok rest => rfl

theorem decode_components_unknown {c : Cursor} {ty : RStr} {c1 : Cursor}
    (hpos : c.pos < c.data.length)
    (hs : read_string c = some (ty, c1))
    (hbad : c.data.length - c1.pos < 2 ∨
      c.data.length - c1.pos < word16be c.data c1.pos + 2) :
    decode_components c = .ok [⟨ty, ComponentData.Unknown (c.data.drop c1.pos)⟩] := by
  apply decode_components_eq
  rw [decode_components_f, if_pos hpos]
  simp only [hs]
  by_cases h2 : 2 ≤ c.data.length - c1.pos
  · rw [if_pos h2, if_neg (by omega)]
  · rw [if_neg h2]

/-! ## The set of loop heads the packet decoder visits, and the
error characterization of the component loop -/

theorem loopStep_data {c c' : Cursor} (h : LoopStep c c') : c'.data = c.data := by
  cases h
  rfl

theorem steps_data {c c' : Cursor}
    (h : Relation.ReflTransGen LoopStep c c') : c'.data = c.data := by
  induction h with
  | refl => rfl
  | tail _ hstep ih => rw [loopStep_data hstep, ih]

theorem except_map_error {α β : Type} {f : α → β} {x : Except String α}
    {e : String} : x.map f = .error e ↔ x = .error e := by
  cases x <;> simp [Except.map]

theorem decode_components_error_iff :
    ∀ c : Cursor, (∃ e, decode_components c = .error e) ↔
      ∃ c', Relation.ReflTransGen LoopStep c c' ∧ c'.pos < c'.data.length ∧
        read_string c' = none := by
  intro c
  generalize hn : c.remaining = n
  induction n using Nat.strong_induction_on generalizing c with
  | _ n ih =>
    by_cases hpos : c.pos < c.data.length
    · cases hs : read_string c with
      | none =>
        constructor
        · intro
          exact ⟨c, Relation.ReflTransGen.refl, hpos, hs⟩
        · intro
          exact ⟨_, decode_components_type_fail hpos hs⟩
      | some p =>
        obtain ⟨ty, c1⟩ := p
        by_cases h2 : 2 ≤ c.data.length - c1.pos
        · by_cases hL : word16be c.data c1.pos + 2 ≤ c.data.length - c1.pos
          · -- well-framed component: one loop step to c2
            obtain ⟨hd1, hp1, hle1⟩ := read_string_advance hs
            have hrem2 : (⟨c.data, c1.pos + 2 + word16be c.data c1.pos⟩ :
                Cursor).remaining < n := by
              simp only [Cursor.remaining]
              simp only [Cursor.remaining] at hn
              omega
            have hiff := ih _ hrem2 ⟨c.data, c1.pos + 2 + word16be c.data c1.pos⟩ rfl
            rw [decode_components_framed hpos hs h2 hL]
            constructor
            · rintro ⟨e, he⟩
              rw [except_map_error] at he
              obtain ⟨c', hsteps, hlt, hfail⟩ := hiff.mp ⟨e, he⟩
              exact ⟨c', Relation.ReflTransGen.head
                (LoopStep.mk c ty c1 hpos hs h2 hL) hsteps, hlt, hfail⟩
            · rintro ⟨c', hsteps, hlt, hfail⟩
              rcases Relation.ReflTransGen.cases_head hsteps with heq | ⟨mid, hstep, hrest⟩
              · subst heq
                rw [hs] at hfail
                exact Option.noConfusion hfail
              · cases hstep with
                | mk s' c1' hpos' hs' h2' hL' =>
                  rw [hs] at hs'
                  obtain ⟨hs1, hs2⟩ : ty = s' ∧ c1 = c1' := by
                    have := Option.some.inj hs'
                    exact ⟨congrArg Prod.fst this, congrArg Prod.snd this⟩
                  subst hs1
                  subst hs2
                  obtain ⟨e, he⟩ := hiff.mpr ⟨c', hrest, hlt, hfail⟩
                  exact ⟨e, by rw [except_map_error]; exact he⟩
          · -- terminal unknown component
            rw [decode_components_unknown hpos hs (Or.inr (by omega))]
            constructor
            · rintro ⟨e, he⟩
              exact Except.noConfusion he
            · rintro ⟨c', hsteps, hlt, hfail⟩
              rcases Relation.ReflTransGen.cases_head hsteps with heq | ⟨mid, hstep, hrest⟩
              · subst heq
                rw [hs] at hfail
                exact Option.noConfusion hfail
              · cases hstep with
                | mk s' c1' hpos' hs' h2' hL' =>
                  rw [hs] at hs'
                  have hc1 : c1 = c1' := congrArg Prod.snd (Option.some.inj hs')
                  subst hc1
                  omega
        · -- terminal unknown component (no room for the length framing)
          rw [decode_components_unknown hpos hs (Or.inl (by omega))]
          constructor
          · rintro ⟨e, he⟩
            exact Except.noConfusion he
          · rintro ⟨c', hsteps, hlt, hfail⟩
            rcases Relation.ReflTransGen.cases_head hsteps with heq | ⟨mid, hstep, hrest⟩
            · subst heq
              rw [hs] at hfail
              exact Option.noConfusion hfail
            · cases hstep with
              | mk s' c1' hpos' hs' h2' hL' =>
                rw [hs] at hs'
                have hc1 : c1 = c1' := congrArg Prod.snd (Option.some.inj hs')
                subst hc1
                omega
    · -- loop never entered
      rw [decode_components_nil (by omega)]
      constructor
      · rintro ⟨e, he⟩
        exact Except.noConfusion he
      · rintro ⟨c', hsteps, hlt, hfail⟩
        rcases Relation.ReflTransGen.cases_head hsteps with heq | ⟨mid, hstep, hrest⟩
        · subst heq
          omega
        · cases hstep with
          | mk s' c1' hpos' hs' h2' hL' =>
            omega

/-! ## Small evaluation helpers for concrete inputs -/

theorem and_128_eq_zero {b : Nat} (h : b < 128) : b &&& 128 = 0 := by
  have h7 : (128 : Nat) = 2 ^ 7 := by norm_num
  rw [h7, Nat.and_two_pow, Nat.testBit_lt_two_pow (show b < 2 ^ 7 by omega)]
  simp

theorem and_127_eq {b : Nat} (h : b < 128) : b &&& 127 = b := by
  have h7 : (127 : Nat) = 2 ^ 7 - 1 := by norm_num
  rw [h7, Nat.and_pow_two_sub_one_eq_mod, Nat.mod_eq_of_lt (by omega)]

/-- A single-byte VarInt (continuation bit clear) decodes to its byte. -/
theorem read_varint_one_byte {c c1 : Cursor} {b : Nat}
    (hb : readByte c = some (b, c1)) (hlt : b < 128) :
    read_varint c = some ((b : Int), c1) := by
  rw [read_varint, read_varint_loop, if_neg (by omega)]
  simp only [hb]
  rw [if_pos (and_128_eq_zero hlt)]
  have hv : (0 : Nat) ||| ((b &&& 127) <<< 0 % 2 ^ 32) = b := by
    rw [and_127_eq hlt, Nat.shiftLeft_eq, pow_zero, Nat.mul_one,
      Nat.mod_eq_of_lt (by omega)]
    exact Nat.zero_or b
  simp only [Option.map_some', hv]
  rw [toInt32, toSigned, if_pos (by omega)]

theorem read_string_of_varint {c c1 c2 : Cursor} {v : Int} {bs : List Nat}
    (hv : read_varint c = some (v, c1))
    (hb : readBytes (usizeOfI32 v) c1 = some (bs, c2))
    (hu : validateUtf8 bs = true) :
    read_string c = some (bs, c2) := by
  unfold read_string
  rw [hv]
  simp only [hb]
  rw [if_pos hu]

/-! ## Claim theorems -/

/-- C8: `parse_nbt` applied to the empty byte slice returns a successful
empty Compound (zero name-value pairs), not an error. -/
theorem C8_parse_nbt_empty : parse_nbt [] = .ok [] := rfl

/-- C7: for every integer `n` with `0 ≤ n ≤ 2^31 - 1`, decoding the
standard little-endian base-128 continuation-bit encoding of `n` (the
reference encoder `encode_varint`) with `read_varint` returns exactly
`n`, with the cursor advanced past the whole encoding. -/
theorem C7_varint_roundtrip (n : Nat) (hn : n ≤ 2 ^ 31 - 1) :
    read_varint ⟨encode_varint n, 0⟩ =
      some ((n : Int), ⟨encode_varint n, (encode_varint n).length⟩) := by
  have hloop := read_varint_loop_encode n ⟨encode_varint n, 0⟩ 0 0 []
    (by simp) (by omega) (by omega) (by omega)
  rw [read_varint, hloop]
  simp only [Option.map_some', Option.some.injEq, Prod.mk.injEq]
  have hv : 0 + n * 2 ^ 0 = n := by omega
  rw [hv, toInt32, toSigned, if_pos (by omega)]
  exact ⟨rfl, by simp⟩

/-- Witness for C7 at `n = 300`. -/
theorem C7_varint_roundtrip_witness :
    read_varint ⟨encode_varint 300, 0⟩ =
      some ((300 : Int), ⟨encode_varint 300, (encode_varint 300).length⟩) := by
  have h := C7_varint_roundtrip 300 (by omega)
  simpa using h

/-- C6: the VarInt reader returns 1 on `[0x01]`, 127 on `[0x7F]` and 128
on `[0x80, 0x01]`; it fails on empty input and on the 6-group input; in
general it fails exactly when no byte with the continuation bit clear
occurs among the (at most 5) readable bytes, and on success it reads at
most 5 bytes, never moving the cursor backwards. -/
theorem C6_varint_boundary (c : Cursor) :
    read_varint ⟨[0x01], 0⟩ = some (1, ⟨[0x01], 1⟩) ∧
    read_varint ⟨[0x7F], 0⟩ = some (127, ⟨[0x7F], 1⟩) ∧
    read_varint ⟨[0x80, 0x01], 0⟩ = some (128, ⟨[0x80, 0x01], 2⟩) ∧
    read_varint ⟨[], 0⟩ = none ∧
    read_varint ⟨[0x80, 0x80, 0x80, 0x80, 0x80, 0x01], 0⟩ = none ∧
    (read_varint c = none ↔
      ∀ j, j < 5 → c.pos + j < c.data.length →
        c.data.getD (c.pos + j) 0 &&& 0x80 ≠ 0) ∧
    (∀ v c', read_varint c = some (v, c') →
      c'.data = c.data ∧ c.pos < c'.pos ∧ c'.pos ≤ c.pos + 5) := by
  refine ⟨?_, ?_, ?_, ?_, ?_, ?_, ?_⟩
  · have h := @read_varint_one_byte ⟨[0x01], 0⟩ ⟨[0x01], 1⟩ 0x01 rfl (by omega)
    simpa using h
  · have h := @read_varint_one_byte ⟨[0x7F], 0⟩ ⟨[0x7F], 1⟩ 0x7F rfl (by omega)
    simpa using h
  · rw [read_varint, read_varint_loop, if_neg (by omega)]
    have hb1 : readByte ⟨[0x80, 0x01], 0⟩ = some (0x80, ⟨[0x80, 0x01], 1⟩) := rfl
    simp only [hb1]
    rw [if_neg (by decide)]
    rw [read_varint_loop, if_neg (by omega)]
    have hb2 : readByte ⟨[0x80, 0x01], 1⟩ = some (0x01, ⟨[0x80, 0x01], 2⟩) := rfl
    simp only [hb2]
    rw [if_pos (by decide)]
    simp only [Option.map_some', Option.some.injEq, Prod.mk.injEq]
    constructor
    · rw [toInt32, toSigned, if_pos (by decide)]
      exact_mod_cast congrArg (Nat.cast : Nat → Int)
        (by decide : ((128 &&& 127) % 4294967296 ||| 1 <<< 7 % 4294967296 : Nat) = 128)
    · trivial
  · rw [read_varint, read_varint_loop, if_neg (by omega)]
    have hb : readByte ⟨[], 0⟩ = none := rfl
    simp [hb]
  · rw [read_varint, read_varint_loop, if_neg (by omega)]
    have hb1 : readByte ⟨[0x80, 0x80, 0x80, 0x80, 0x80, 0x01], 0⟩ =
      some (0x80, ⟨[0x80, 0x80, 0x80, 0x80, 0x80, 0x01], 1⟩) := rfl
    simp only [hb1]
    rw [if_neg (by decide), read_varint_loop, if_neg (by omega)]
    have hb2 : readByte ⟨[0x80, 0x80, 0x80, 0x80, 0x80, 0x01], 1⟩ =
      some (0x80, ⟨[0x80, 0x80, 0x80, 0x80, 0x80, 0x01], 2⟩) := rfl
    simp only [hb2]
    rw [if_neg (by decide), read_varint_loop, if_neg (by omega)]
    have hb3 : readByte ⟨[0x80, 0x80, 0x80, 0x80, 0x80, 0x01], 2⟩ =
      some (0x80, ⟨[0x80, 0x80, 0x80, 0x80, 0x80, 0x01], 3⟩) := rfl
    simp only [hb3]
    rw [if_neg (by decide), read_varint_loop, if_neg (by omega)]
    have hb4 : readByte ⟨[0x80, 0x80, 0x80, 0x80, 0x80, 0x01], 3⟩ =
      some (0x80, ⟨[0x80, 0x80, 0x80, 0x80, 0x80, 0x01], 4⟩) := rfl
    simp only [hb4]
    rw [if_neg (by decide), read_varint_loop, if_neg (by omega)]
    have hb5 : readByte ⟨[0x80, 0x80, 0x80, 0x80, 0x80, 0x01], 4⟩ =
      some (0x80, ⟨[0x80, 0x80, 0x80, 0x80, 0x80, 0x01], 5⟩) := rfl
    simp only [hb5]
    rw [if_neg (by decide), read_varint_loop, if_pos (by omega)]
    rfl
  · have hiff := read_varint_loop_isSome c 0 0
    have hmap : read_varint c = none ↔ read_varint_loop c 0 0 = none := by
      rw [read_varint]
      exact Option.map_eq_none'
    have hnone : read_varint_loop c 0 0 = none ↔
        ¬ (read_varint_loop c 0 0).isSome = true := by
      cases read_varint_loop c 0 0 <;> simp
    rw [hmap, hnone, hiff]
    constructor
    · intro hne j hj hlt hterm
      apply hne
      have hP : ∃ i, c.pos + i < c.data.length ∧
          c.data.getD (c.pos + i) 0 &&& 128 = 0 := ⟨j, hlt, hterm⟩
      have hk := Nat.find_spec hP
      have hkle : Nat.find hP ≤ j := Nat.find_min' hP ⟨hlt, hterm⟩
      refine ⟨Nat.find hP, by omega, hk.1, hk.2, ?_⟩
      intro i hik hterm_i
      exact Nat.find_min hP hik ⟨by omega, hterm_i⟩
    · rintro hall ⟨j, hsh, hlt, hterm, -⟩
      exact hall j (by omega) hlt hterm
  · intro v c' h
    obtain ⟨hd, hlt, -, hb⟩ := read_varint_advance h
    exact ⟨hd, hlt, hb⟩

/-- Witness for C6: the advance bound applied at the one-byte input,
discharging its hypothesis with the concrete decode from the theorem
itself. -/
theorem C6_varint_boundary_witness :
    (⟨[0x01], 1⟩ : Cursor).data = (⟨[0x01], 0⟩ : Cursor).data ∧
    (⟨[0x01], 0⟩ : Cursor).pos < (⟨[0x01], 1⟩ : Cursor).pos ∧
    (⟨[0x01], 1⟩ : Cursor).pos ≤ (⟨[0x01], 0⟩ : Cursor).pos + 5 :=
  (C6_varint_boundary ⟨[0x01], 0⟩).2.2.2.2.2.2 1 ⟨[0x01], 1⟩
    (C6_varint_boundary ⟨[0x01], 0⟩).1

/-- C4: a tag-type byte outside 1–12 (and other than the end marker 0)
read by the compound loop makes the whole tree parse fail with the
descriptive unknown-tag error — no partial compound is returned — and
the payload reader itself, which is also what reads each list element's
payload for the list's element tag type, always fails on such a tag. -/
theorem C4_unknown_tag_aborts (c : Cursor) (t : Nat) (c1 : Cursor)
    (name : RStr) (c2 : Cursor)
    (hb : readByte c = some (t, c1))
    (ht0 : t ≠ 0)
    (htr : ¬(1 ≤ t ∧ t ≤ 12))
    (hname : read_nbt_string c1 = .ok (name, c2)) :
    read_nbt_compound c = .error ("Unknown NBT tag type: " ++ toString t) ∧
    (∀ fuel (c' : Cursor), read_nbt_payload_f (fuel + 1) c' t =
      some (.error ("Unknown NBT tag type: " ++ toString t))) := by
  have hpay : ∀ fuel (c' : Cursor), read_nbt_payload_f (fuel + 1) c' t =
      some (.error ("Unknown NBT tag type: " ++ toString t)) := by
    intro fuel c'
    rw [read_nbt_payload_f]
    all_goals omega
  refine ⟨?_, hpay⟩
  unfold read_nbt_compound
  have hf : 2 * c.remaining + 2 = (2 * c.remaining + 1) + 1 := by omega
  rw [hf, read_nbt_compound_f]
  simp only [hb]
  rw [if_neg ht0]
  simp only [hname]
  rw [hpay (2 * c.remaining)]
  rfl

/-- Witness for C4 at tag byte 99 with an empty name. -/
theorem C4_unknown_tag_aborts_witness :
    read_nbt_compound ⟨[99, 0, 0], 0⟩ =
      .error ("Unknown NBT tag type: " ++ toString 99) :=
  (C4_unknown_tag_aborts ⟨[99, 0, 0], 0⟩ 99 ⟨[99, 0, 0], 1⟩ [] ⟨[99, 0, 0], 3⟩
    rfl (by decide) (by decide) rfl).1

/-- C5: the tree parser and the packet decoder terminate on every finite
input: fuel linear in the unread byte count (`2 * remaining + 2` for the
tree readers, `remaining + 1` for the component loop) provably never
runs out, because every successful tag-type/name/payload read consumes
at least one byte — the strict cursor advance stated in the last two
conjuncts. -/
theorem C5_parser_terminates (c : Cursor) :
    (read_nbt_compound_f (2 * c.remaining + 2) c).isSome = true ∧
    (∀ t, (read_nbt_payload_f (2 * c.remaining + 2) c t).isSome = true) ∧
    (decode_components_f (c.remaining + 1) c).isSome = true ∧
    (∀ fuel r c', read_nbt_compound_f fuel c = some (.ok (r, c')) →
      c.pos < c'.pos ∧ c'.pos ≤ c.data.length) ∧
    (∀ fuel t v c', read_nbt_payload_f fuel c t = some (.ok (v, c')) →
      c.pos < c'.pos ∧ c'.pos ≤ c.data.length) := by
  refine ⟨?_, ?_, ?_, ?_, ?_⟩
  · exact (nbt_readers_sufficient _).1 c (by omega)
  · intro t
    exact (nbt_readers_sufficient _).2.1 c t (by omega)
  · exact decode_components_f_sufficient _ c (by omega)
  · intro fuel r c' h
    obtain ⟨-, h1, h2⟩ := (nbt_readers_advance fuel).1 c r c' h
    exact ⟨h1, h2⟩
  · intro fuel t v c' h
    obtain ⟨-, h1, h2⟩ := (nbt_readers_advance fuel).2.1 c t v c' h
    exact ⟨h1, h2⟩

/-- Witness for C5: the strict-advance conjunct applied to the concrete
parse of a lone end marker. -/
theorem C5_parser_terminates_witness :
    (⟨[0], 0⟩ : Cursor).pos < (⟨[0], 1⟩ : Cursor).pos ∧
    (⟨[0], 1⟩ : Cursor).pos ≤ (⟨[0], 0⟩ : Cursor).data.length := by
  have h : read_nbt_compound_f 2 ⟨[0], 0⟩ = some (.ok ([], ⟨[0], 1⟩)) := by
    rw [show (2 : Nat) = 1 + 1 from rfl, read_nbt_compound_f]
    have hb : readByte ⟨[0], 0⟩ = some (0, ⟨[0], 1⟩) := rfl
    simp [hb]
  exact (C5_parser_terminates ⟨[0], 0⟩).2.2.2.1 2 [] ⟨[0], 1⟩ h

/-- C9: every reader operation moves the cursor forward only, never past
the end of the buffer; the packet decoder's explicit repositioning past
a well-framed component's `L + 2` bytes likewise moves forward and stays
within bounds. -/
theorem C9_cursor_forward_only (c : Cursor) :
    (∀ v c', read_varint c = some (v, c') →
      c'.data = c.data ∧ c.pos ≤ c'.pos ∧ c'.pos ≤ c.data.length) ∧
    (∀ v c', read_varint_u32 c = some (v, c') →
      c'.data = c.data ∧ c.pos ≤ c'.pos ∧ c'.pos ≤ c.data.length) ∧
    (∀ s c', read_string c = some (s, c') →
      c'.data = c.data ∧ c.pos ≤ c'.pos ∧ c'.pos ≤ c.data.length) ∧
    (∀ s c', read_string_byte_prefix c = some (s, c') →
      c'.data = c.data ∧ c.pos ≤ c'.pos ∧ c'.pos ≤ c.data.length) ∧
    (∀ s c', read_nbt_string c = .ok (s, c') →
      c'.data = c.data ∧ c.pos ≤ c'.pos ∧ c'.pos ≤ c.data.length) ∧
    (∀ fuel r c', read_nbt_compound_f fuel c = some (.ok (r, c')) →
      c'.data = c.data ∧ c.pos ≤ c'.pos ∧ c'.pos ≤ c.data.length) ∧
    (∀ fuel t v c', read_nbt_payload_f fuel c t = some (.ok (v, c')) →
      c'.data = c.data ∧ c.pos ≤ c'.pos ∧ c'.pos ≤ c.data.length) ∧
    (∀ ty c1, read_string c = some (ty, c1) →
      2 ≤ c.data.length - c1.pos →
      word16be c.data c1.pos + 2 ≤ c.data.length - c1.pos →
      c1.pos ≤ c1.pos + 2 + word16be c.data c1.pos ∧
        c1.pos + 2 + word16be c.data c1.pos ≤ c.data.length) := by
  refine ⟨?_, ?_, ?_, ?_, ?_, ?_, ?_, ?_⟩
  · intro v c' h
    obtain ⟨hd, hp, hle, -⟩ := read_varint_advance h
    exact ⟨hd, by omega, hle⟩
  · intro v c' h
    obtain ⟨hd, hp, hle, -⟩ := read_varint_u32_advance h
    exact ⟨hd, by omega, hle⟩
  · intro s c' h
    obtain ⟨hd, hp, hle⟩ := read_string_advance h
    exact ⟨hd, by omega, hle⟩
  · intro s c' h
    obtain ⟨hd, hp, hle⟩ := read_string_byte_prefix_advance h
    exact ⟨hd, by omega, hle⟩
  · intro s c' h
    obtain ⟨hd, hp, hle⟩ := read_nbt_string_advance h
    exact ⟨hd, by omega, hle⟩
  · intro fuel r c' h
    obtain ⟨hd, hp, hle⟩ := (nbt_readers_advance fuel).1 c r c' h
    exact ⟨hd, by omega, hle⟩
  · intro fuel t v c' h
    obtain ⟨hd, hp, hle⟩ := (nbt_readers_advance fuel).2.1 c t v c' h
    exact ⟨hd, by omega, hle⟩
  · intro ty c1 hs h2 hL
    obtain ⟨hd, hp, hle⟩ := read_string_advance hs
    exact ⟨by omega, by omega⟩

/-- Witness for C9: the name reader at a concrete two-byte input. -/
theorem C9_cursor_forward_only_witness :
    (⟨[0, 0], 2⟩ : Cursor).data = (⟨[0, 0], 0⟩ : Cursor).data ∧
    (⟨[0, 0], 0⟩ : Cursor).pos ≤ (⟨[0, 0], 2⟩ : Cursor).pos ∧
    (⟨[0, 0], 2⟩ : Cursor).pos ≤ (⟨[0, 0], 0⟩ : Cursor).data.length :=
  (C9_cursor_forward_only ⟨[0, 0], 0⟩).2.2.2.2.1 [] ⟨[0, 0], 2⟩ rfl

/-- C10: a leading end-marker byte 0 makes `parse_nbt` succeed with the
empty compound regardless of the bytes that follow; in general
`parse_nbt` returns the compound read up to the first top-level end
marker and ignores anything after the final cursor instead of treating
trailing data as an error. -/
theorem C10_trailing_bytes_ignored :
    (∀ rest : List Nat, parse_nbt (0 :: rest) = .ok []) ∧
    (∀ data comp c', read_nbt_compound ⟨data, 0⟩ = .ok (comp, c') →
      parse_nbt data = .ok comp) := by
  constructor
  · intro rest
    have hcomp : read_nbt_compound ⟨0 :: rest, 0⟩ = .ok ([], ⟨0 :: rest, 1⟩) := by
      unfold read_nbt_compound
      have hf : 2 * (⟨0 :: rest, 0⟩ : Cursor).remaining + 2 =
          (2 * (⟨0 :: rest, 0⟩ : Cursor).remaining + 1) + 1 := by omega
      rw [hf, read_nbt_compound_f]
      have hb : readByte ⟨0 :: rest, 0⟩ = some (0, ⟨0 :: rest, 1⟩) := by
        unfold readByte
        rw [if_pos (by simp)]
        rfl
      simp [hb]
    unfold parse_nbt
    rw [if_neg (by simp), hcomp]
    rfl
  · intro data comp c' h
    cases data with
    | nil =>
      exfalso
      have hfail : read_nbt_compound ⟨[], 0⟩ =
          .error "failed to fill whole buffer" := by
        unfold read_nbt_compound
        rw [show 2 * (⟨([] : List Nat), 0⟩ : Cursor).remaining + 2 = 1 + 1 from by
          simp [Cursor.remaining], read_nbt_compound_f]
        rfl
      rw [hfail] at h
      exact Except.noConfusion h
    | cons b bs =>
      unfold parse_nbt
      rw [if_neg (by simp), h]
      rfl

/-- Witness for C10: trailing byte 7 after the end marker is ignored. -/
theorem C10_trailing_bytes_ignored_witness : parse_nbt [0, 7] = .ok [] := by
  have h : read_nbt_compound ⟨[0, 7], 0⟩ = .ok ([], ⟨[0, 7], 1⟩) := by
    unfold read_nbt_compound
    rw [show 2 * (⟨[0, 7], 0⟩ : Cursor).remaining + 2 = 5 + 1 from by
      simp [Cursor.remaining], read_nbt_compound_f]
    have hb : readByte ⟨[0, 7], 0⟩ = some (0, ⟨[0, 7], 1⟩) := rfl
    simp [hb]
  exact C10_trailing_bytes_ignored.2 [0, 7] [] ⟨[0, 7], 1⟩ h

/-- C1: `decode_cca_entity_sync` returns an error if and only if the
leading VarInt entity-id read fails, or a component-type string read
fails at some loop head the decoder visits (a `LoopStep` chain from the
post-identifier cursor).  The right-hand side mentions no tree-parse
outcome, so a `parse_nbt` failure on a component payload never yields a
packet-level error. -/
theorem C1_packet_error_iff (data : List Nat) :
    (∃ e, decode_cca_entity_sync data = .error e) ↔
      (read_varint ⟨data, 0⟩ = none ∨
        ∃ v c0 c', read_varint ⟨data, 0⟩ = some (v, c0) ∧
          Relation.ReflTransGen LoopStep c0 c' ∧ c'.pos < c'.data.length ∧
          read_string c' = none) := by
  unfold decode_cca_entity_sync
  cases hv : read_varint ⟨data, 0⟩ with
  | none =>
    constructor
    · intro
      exact Or.inl rfl
    · intro
      exact ⟨"Failed to read entity ID", rfl⟩
  | some p =>
    obtain ⟨v, c0⟩ := p
    constructor
    · rintro ⟨e, he⟩
      simp only [] at he
      rw [except_map_error] at he
      obtain ⟨c', h1, h2, h3⟩ := (decode_components_error_iff c0).mp ⟨e, he⟩
      exact Or.inr ⟨v, c0, c', rfl, h1, h2, h3⟩
    · rintro (hbad | ⟨v', c0', c', hv', hsteps, hlt, hfail⟩)
      · exact Option.noConfusion hbad
      · obtain ⟨he1, he2⟩ : v = v' ∧ c0 = c0' := by
          have hp := Option.some.inj hv'
          exact ⟨congrArg Prod.fst hp, congrArg Prod.snd hp⟩
        subst he1
        subst he2
        obtain ⟨e, he⟩ := (decode_components_error_iff c0).mpr ⟨c', hsteps, hlt, hfail⟩
        refine ⟨e, ?_⟩
        simp only []
        rw [except_map_error]
        exact he

/-- C2: at a loop head of the component loop whose component is
well-framed — at least 2 bytes remain and the big-endian length `L`
satisfies `L + 2 ≤ remaining` — the decoder slices out exactly the `L`
bytes after the framing, repositions the cursor past exactly `L + 2`
bytes, appends a parsed-compound component when `parse_nbt` succeeds on
the slice and a raw-bytes component carrying that same slice when it
fails, and in both cases decodes the sibling components from the
repositioned cursor. -/
theorem C2_component_fallback (c : Cursor) (ty : RStr) (c1 : Cursor)
    (hpos : c.pos < c.data.length)
    (hs : read_string c = some (ty, c1))
    (h2 : 2 ≤ c.data.length - c1.pos)
    (hL : word16be c.data c1.pos + 2 ≤ c.data.length - c1.pos) :
    (∀ nbt,
      parse_nbt ((c.data.drop (c1.pos + 2)).take (word16be c.data c1.pos)) =
        .ok nbt →
      decode_components c =
        (decode_components ⟨c.data, c1.pos + 2 + word16be c.data c1.pos⟩).map
          (fun rest => ⟨ty, ComponentData.ParsedNbt nbt⟩ :: rest)) ∧
    (∀ e,
      parse_nbt ((c.data.drop (c1.pos + 2)).take (word16be c.data c1.pos)) =
        .error e →
      decode_components c =
        (decode_components ⟨c.data, c1.pos + 2 + word16be c.data c1.pos⟩).map
          (fun rest =>
            ⟨ty, ComponentData.Nbt
              ((c.data.drop (c1.pos + 2)).take (word16be c.data c1.pos))⟩ ::
            rest)) := by
  have hmain := decode_components_framed hpos hs h2 hL
  constructor
  · intro nbt hok
    rw [hmain]
    simp only [hok]
  · intro e herr
    rw [hmain]
    simp only [herr]

/-- Witness for C2 at the spec's graceful-fallback example: component A
carries tag-type 99 inside its framing, so its tree parse fails and the
raw slice is kept while decoding continues after the framed bytes. -/
theorem C2_component_fallback_witness :
    decode_components ⟨[1, 97, 0, 3, 99, 0, 0, 1, 98, 0, 0], 0⟩ =
      (decode_components ⟨[1, 97, 0, 3, 99, 0, 0, 1, 98, 0, 0],
          2 + 2 + word16be [1, 97, 0, 3, 99, 0, 0, 1, 98, 0, 0] 2⟩).map
        (fun rest =>
          ⟨[97], ComponentData.Nbt
            (([1, 97, 0, 3, 99, 0, 0, 1, 98, 0, 0].drop (2 + 2)).take
              (word16be [1, 97, 0, 3, 99, 0, 0, 1, 98, 0, 0] 2))⟩ :: rest) := by
  have hpay : read_nbt_payload_f 7 ⟨[99, 0, 0], 3⟩ 99 =
      some (.error ("Unknown NBT tag type: " ++ toString 99)) := by
    rw [show (7 : Nat) = 6 + 1 from rfl, read_nbt_payload_f]
    all_goals omega
  have hcomp : read_nbt_compound_f 8 ⟨[99, 0, 0], 0⟩ =
      some (.error ("Unknown NBT tag type: " ++ toString 99)) := by
    rw [show (8 : Nat) = 7 + 1 from rfl, read_nbt_compound_f]
    have hb : readByte ⟨[99, 0, 0], 0⟩ = some (99, ⟨[99, 0, 0], 1⟩) := rfl
    simp only [hb]
    rw [if_neg (by decide)]
    have hn : read_nbt_string ⟨[99, 0, 0], 1⟩ = .ok ([], ⟨[99, 0, 0], 3⟩) := rfl
    simp only [hn, hpay]
  have hparse : parse_nbt [99, 0, 0] =
      .error ("Unknown NBT tag type: " ++ toString 99) := by
    unfold parse_nbt
    rw [if_neg (by simp)]
    unfold read_nbt_compound
    rw [show 2 * (⟨[99, 0, 0], 0⟩ : Cursor).remaining + 2 = 8 from by
      simp [Cursor.remaining], hcomp]
    rfl
  have hs : read_string ⟨[1, 97, 0, 3, 99, 0, 0, 1, 98, 0, 0], 0⟩ =
      some ([97], ⟨[1, 97, 0, 3, 99, 0, 0, 1, 98, 0, 0], 2⟩) :=
    read_string_of_varint (read_varint_one_byte rfl (by decide)) rfl rfl
  exact (C2_component_fallback ⟨[1, 97, 0, 3, 99, 0, 0, 1, 98, 0, 0], 0⟩ [97]
    ⟨[1, 97, 0, 3, 99, 0, 0, 1, 98, 0, 0], 2⟩ (by decide) hs (by decide)
    (by decide)).2 ("Unknown NBT tag type: " ++ toString 99) hparse

/-- C3: at a loop head where the 2-byte length framing cannot be
satisfied — fewer than 2 bytes remain, or the declared big-endian length
overruns the buffer — the decoder appends exactly one final component
holding all remaining bytes (framing bytes included) as the
unknown-format variant, terminates the loop, and returns success. -/
theorem C3_terminal_unknown (c : Cursor) (ty : RStr) (c1 : Cursor)
    (hpos : c.pos < c.data.length)
    (hs : read_string c = some (ty, c1))
    (hbad : c.data.length - c1.pos < 2 ∨
      c.data.length - c1.pos < word16be c.data c1.pos + 2) :
    decode_components c = .ok [⟨ty, ComponentData.Unknown (c.data.drop c1.pos)⟩] :=
  decode_components_unknown hpos hs hbad

/-- Witness for C3: after the type string only one byte remains, so the
length framing is missing and that byte becomes one unknown-format
component. -/
theorem C3_terminal_unknown_witness :
    decode_components ⟨[1, 97, 7], 0⟩ =
      .ok [⟨[97], ComponentData.Unknown [7]⟩] := by
  have hs : read_string ⟨[1, 97, 7], 0⟩ = some ([97], ⟨[1, 97, 7], 2⟩) :=
    read_string_of_varint (read_varint_one_byte rfl (by decide)) rfl rfl
  exact C3_terminal_unknown ⟨[1, 97, 7], 0⟩ [97] ⟨[1, 97, 7], 2⟩ (by decide) hs
    (Or.inl (by decide))

/-- Witness for C1: on empty input the entity-id read fails, and the
equivalence yields a packet-level error. -/
theorem C1_packet_error_iff_witness :
    ∃ e, decode_cca_entity_sync [] = .error e := by
  have hnone : read_varint ⟨([] : List Nat), 0⟩ = none := by
    rw [read_varint, read_varint_loop, if_neg (by omega)]
    rfl
  exact (C1_packet_error_iff []).mpr (Or.inl hnone)
